import Mathlib

/-!
Verification of the Montgomery reduction / modular exponentiation / shift subsystem
of the `crypto-bigint` repository, shallowly embedded over little-endian limb lists.

A machine word (`Limb`) is a natural number below `B = 2 ^ W` with `W = 64`; a big
integer of `n` limbs is a `List Nat` of length `n` whose entries are below `B`, read
little-endian by `val`.  Wrapping word arithmetic is expressed with explicit `% B`
(and `% (B * B)` for the double-width products of `muladdcarry`).
-/

/-- The platform word width (`Word::BITS`). -/
def W : Nat := 64

/-- The word base `2 ^ W`. -/
def B : Nat := 2 ^ W

/-- Little-endian value of a limb list. -/
def val : List Nat → Nat
  | [] => 0
  | d :: ds => d + B * val ds

/-- The `k` low little-endian limbs of a natural number. -/
def toLimbs : Nat → Nat → List Nat
  | 0, _ => []
  | k + 1, x => x % B :: toLimbs k (x / B)

/-- `muladdcarry` from `reduction.rs`: returns `(hi, lo)` with
`hi * B + lo = x * y + z + w`, the arithmetic being performed on a
double-width word (wrapping at `B * B`). -/
def muladdcarry (x y z w : Nat) : Nat × Nat :=
  ((x * y + z + w) % (B * B) / B, (x * y + z + w) % (B * B) % B)

/-- The inner carry-propagation loop of `impl_montgomery_reduction!`: the two
`while` loops over `j` walk the combined buffer `lower ++ upper` at positions
`i + j` for `j = 1 .. limbs - 1`, adding `u * modulus` with carry.  `fuel`
counts the remaining iterations (`limbs - j`). -/
def innerLoop (u : Nat) (m : List Nat) (i : Nat) :
    Nat → Nat → Nat → List Nat → List Nat × Nat
  | 0, _, carry, c => (c, carry)
  | fuel + 1, j, carry, c =>
    let p := muladdcarry u (m.getD j 0) (c.getD (i + j) 0) carry
    innerLoop u m i fuel (j + 1) p.1 (c.set (i + j) p.2)

/-- The outer loop of `impl_montgomery_reduction!` over `i = 0 .. limbs - 1`,
acting on the combined buffer `c = lower ++ upper` (so `upper[i]` is `c[limbs + i]`).
The final `adc` into `upper[i]` updates the running meta-carry; the word addition
`Limb::adc` (an external collaborator per the spec) reports sum and carry exactly. -/
def redcLoop (m : List Nat) (mod_neg_inv : Nat) :
    Nat → Nat → List Nat → Nat → List Nat × Nat
  | 0, _, c, meta_carry => (c, meta_carry)
  | fuel + 1, i, c, meta_carry =>
    let u := c.getD i 0 * mod_neg_inv % B
    let carry0 := (muladdcarry u (m.getD 0 0) (c.getD i 0) 0).1
    let r := innerLoop u m i (m.length - 1) 1 carry0 c
    let s := r.1.getD (m.length + i) 0 + r.2 + meta_carry
    redcLoop m mod_neg_inv fuel (i + 1) (r.1.set (m.length + i) (s % B)) (s / B)

/-- Modelled from the spec: `Uint::sub_mod_with_carry` is not among the given
sources.  Per §4.2, reduction ends with "a final constant-time conditional
subtraction of the modulus (guarded by the meta-carry together with a borrow
test)": when the meta-carry is clear and subtracting the modulus would borrow,
the value is returned unchanged; otherwise the modulus is subtracted, the limb
arithmetic wrapping at `B ^ n`. -/
def sub_mod_with_carry (carry : Nat) (u m : List Nat) : List Nat :=
  if carry = 0 ∧ val u < val m then u
  else toLimbs m.length ((val u + carry * B ^ m.length - val m) % B ^ m.length)

/-- `montgomery_reduction` from `reduction.rs`: run the shared reduction loop on
`lower ++ upper`, take the upper half, and conditionally subtract the modulus. -/
def montgomery_reduction (lower upper m : List Nat) (mod_neg_inv : Nat) : List Nat :=
  let r := redcLoop m mod_neg_inv m.length 0 (lower ++ upper) 0
  sub_mod_with_carry r.2 (r.1.drop m.length) m

/-- Modelled from the spec: `BoxedUint::sbb_assign` is not among the given
sources; it is the word-level borrow-propagating subtraction (external
collaborator, §2 item 1): it stores the difference wrapped at `B ^ n` and
returns the final borrow word, all-ones on underflow and zero otherwise. -/
def sbb_assign (u m : List Nat) : List Nat × Nat :=
  (toLimbs u.length ((val u + B ^ u.length - val m) % B ^ u.length),
   if val u < val m then B - 1 else 0)

/-- Modelled from the spec: `BoxedUint::conditional_adc_assign` is not among the
given sources; it conditionally adds `m` (wrapping at `B ^ n`) under a
constant-time choice. -/
def conditional_adc_assign (u m : List Nat) (choice : Bool) : List Nat :=
  if choice then toLimbs u.length ((val u + val m) % B ^ u.length) else u

/-- `montgomery_reduction_boxed_mut` from `reduction.rs`: the same shared loop on
the double-width buffer `x`, then `out = upper - modulus` via `sbb_assign`, the
borrow is masked with `!meta_carry.wrapping_neg()`, and the modulus is added
back when the masked borrow's low bit is set. -/
def montgomery_reduction_boxed_mut (x m : List Nat) (mod_neg_inv : Nat) : List Nat :=
  let r := redcLoop m mod_neg_inv m.length 0 x 0
  let s := sbb_assign (r.1.drop m.length) m
  let borrow := (B - 1 - (B - r.2) % B) &&& s.2
  conditional_adc_assign s.1 m (borrow &&& 1 = 1)

/-- `montgomery_reduction_boxed` from `reduction.rs`: allocates a fresh output
(`zero_with_precision`, fully overwritten by the `_mut` form) and delegates. -/
def montgomery_reduction_boxed (x m : List Nat) (mod_neg_inv : Nat) : List Nat :=
  montgomery_reduction_boxed_mut x m mod_neg_inv

/-! ### Basic facts about `B`, `val` and `toLimbs` -/

theorem B_pos : 0 < B := by norm_num [B, W]

theorem one_lt_B : 1 < B := by norm_num [B, W]

theorem val_nil : val [] = 0 := rfl

theorem val_cons (d : Nat) (ds : List Nat) : val (d :: ds) = d + B * val ds := rfl

theorem val_append (a b : List Nat) : val (a ++ b) = val a + B ^ a.length * val b := by
  induction a with
  | nil => simp [val]
  | cons d ds ih =>
    simp only [List.cons_append, val_cons, ih, List.length_cons, pow_succ]
    ring

theorem val_lt_pow {l : List Nat} (h : ∀ d ∈ l, d < B) : val l < B ^ l.length := by
  induction l with
  | nil => simp [val, B_pos]
  | cons d ds ih =>
    have hd : d < B := h d (List.mem_cons_self d ds)
    have hds : val ds < B ^ ds.length := ih fun x hx => h x (List.mem_cons_of_mem d hx)
    calc val (d :: ds) = d + B * val ds := rfl
      _ < B + B * val ds := Nat.add_lt_add_right hd _
      _ = B * (val ds + 1) := by ring
      _ ≤ B * B ^ ds.length := Nat.mul_le_mul_left B (Nat.succ_le_of_lt hds)
      _ = B ^ (ds.length + 1) := by rw [pow_succ, Nat.mul_comm]

theorem toLimbs_length (k x : Nat) : (toLimbs k x).length = k := by
  induction k generalizing x with
  | zero => rfl
  | succ k ih => simp [toLimbs, ih]

theorem toLimbs_bounded (k x : Nat) : ∀ d ∈ toLimbs k x, d < B := by
  induction k generalizing x with
  | zero => intro d hd; simp [toLimbs] at hd
  | succ k ih =>
    intro d hd
    simp only [toLimbs, List.mem_cons] at hd
    rcases hd with h | h
    · exact h ▸ Nat.mod_lt _ B_pos
    · exact ih _ d h

theorem val_toLimbs (k x : Nat) : val (toLimbs k x) = x % B ^ k := by
  induction k generalizing x with
  | zero => simp [toLimbs, val, Nat.mod_one]
  | succ k ih =>
    have h : x % B ^ (k + 1) = x % B + B * (x / B % B ^ k) := by
      rw [pow_succ, Nat.mul_comm, Nat.mod_mul]
    simp only [toLimbs, val_cons, ih, h]

theorem toLimbs_val {l : List Nat} (h : ∀ d ∈ l, d < B) : toLimbs l.length (val l) = l := by
  induction l with
  | nil => rfl
  | cons d ds ih =>
    have hd : d < B := h d (List.mem_cons_self d ds)
    have hds := ih fun x hx => h x (List.mem_cons_of_mem d hx)
    have h1 : (d + B * val ds) % B = d := by
      rw [Nat.add_mul_mod_self_left, Nat.mod_eq_of_lt hd]
    have h2 : (d + B * val ds) / B = val ds := by
      rw [Nat.add_mul_div_left _ _ B_pos, Nat.div_eq_of_lt hd, Nat.zero_add]
    simp only [List.length_cons, toLimbs, val_cons, h1, h2, hds]

theorem toLimbs_mod (k x : Nat) : toLimbs k (x % B ^ k) = toLimbs k x := by
  induction k generalizing x with
  | zero => rfl
  | succ k ih =>
    simp only [toLimbs]
    have h1 : x % B ^ (k + 1) % B = x % B := by
      exact Nat.mod_mod_of_dvd x ⟨B ^ k, by rw [pow_succ, Nat.mul_comm]⟩
    have h2 : x % B ^ (k + 1) / B = x / B % B ^ k := by
      rw [pow_succ, Nat.mul_comm, Nat.mod_mul_right_div_self]
    rw [h1, h2, ih]

theorem toLimbs_zero_eq (k : Nat) : toLimbs k 0 = List.replicate k 0 := by
  induction k with
  | zero => rfl
  | succ k ih => simp [toLimbs, ih, List.replicate_succ]

/-! ### Limb-list indexing helpers -/

theorem getD_lt {l : List Nat} (h : ∀ d ∈ l, d < B) (k : Nat) : l.getD k 0 < B := by
  induction l generalizing k with
  | nil => simpa using B_pos
  | cons d ds ih =>
    cases k with
    | zero => exact h d (List.mem_cons_self d ds)
    | succ k =>
      exact ih (fun x hx => h x (List.mem_cons_of_mem d hx)) k

theorem val_drop_getD (l : List Nat) (k : Nat) :
    val (l.drop k) = l.getD k 0 + B * val (l.drop (k + 1)) := by
  induction l generalizing k with
  | nil => simp [val]
  | cons d ds ih =>
    cases k with
    | zero => simp [val_cons]
    | succ k => simpa using ih k

theorem getD_set_self : ∀ (l : List Nat) (k : Nat), k < l.length → ∀ v : Nat,
    (l.set k v).getD k 0 = v := by
  intro l
  induction l with
  | nil => intro k h v; simp at h
  | cons d ds ih =>
    intro k h v
    cases k with
    | zero => simp
    | succ k => simpa using ih k (by simpa using h) v

theorem getD_set_ne : ∀ (l : List Nat) (j k : Nat), j ≠ k → ∀ v : Nat,
    (l.set k v).getD j 0 = l.getD j 0 := by
  intro l
  induction l with
  | nil => intro j k h v; simp
  | cons d ds ih =>
    intro j k h v
    cases k with
    | zero =>
      cases j with
      | zero => exact absurd rfl h
      | succ j => simp
    | succ k =>
      cases j with
      | zero => simp
      | succ j => simpa using ih j k (fun hh => h (by omega)) v

theorem drop_set_of_lt : ∀ (l : List Nat) (k j : Nat), k < j → ∀ v : Nat,
    (l.set k v).drop j = l.drop j := by
  intro l
  induction l with
  | nil => intro k j h v; simp
  | cons d ds ih =>
    intro k j h v
    cases k with
    | zero =>
      cases j with
      | zero => omega
      | succ j => simp
    | succ k =>
      cases j with
      | zero => omega
      | succ j => simpa using ih k j (by omega) v

theorem drop_set_of_ge : ∀ (l : List Nat) (k j : Nat), j ≤ k → ∀ v : Nat,
    (l.set k v).drop j = (l.drop j).set (k - j) v := by
  intro l
  induction l with
  | nil => intro k j h v; simp
  | cons d ds ih =>
    intro k j h v
    cases j with
    | zero => simp
    | succ j =>
      cases k with
      | zero => omega
      | succ k => simpa using ih k j (by omega) v

theorem val_set_add : ∀ (l : List Nat) (k : Nat), k < l.length → ∀ v : Nat,
    val (l.set k v) + B ^ k * l.getD k 0 = val l + B ^ k * v := by
  intro l
  induction l with
  | nil => intro k h v; simp at h
  | cons d ds ih =>
    intro k h v
    cases k with
    | zero => simp [val_cons]; ring
    | succ k =>
      have ihh := ih k (by simpa using h) v
      simp only [List.set_cons_succ, val_cons, List.getD_cons_succ, pow_succ]
      calc d + B * val (ds.set k v) + B ^ k * B * (ds.getD k 0)
          = d + B * (val (ds.set k v) + B ^ k * ds.getD k 0) := by ring
        _ = d + B * (val ds + B ^ k * v) := by rw [ihh]
        _ = d + B * val ds + B ^ k * B * v := by ring

theorem bounded_set {l : List Nat} (h : ∀ d ∈ l, d < B) {v : Nat} (hv : v < B) (k : Nat) :
    ∀ d ∈ l.set k v, d < B := by
  intro d hd
  rcases List.mem_or_eq_of_mem_set hd with hmem | heq
  · exact h d hmem
  · exact heq ▸ hv

theorem bounded_drop {l : List Nat} (h : ∀ d ∈ l, d < B) (k : Nat) :
    ∀ d ∈ l.drop k, d < B :=
  fun d hd => h d (List.mem_of_mem_drop hd)

/-! ### Word-level facts about `muladdcarry` -/

theorem word_mul_add_add_lt {x y z w : Nat} (hx : x < B) (hy : y < B) (hz : z < B)
    (hw : w < B) : x * y + z + w < B * B := by
  obtain ⟨b1, hb1⟩ : ∃ b1, B = b1 + 1 := ⟨B - 1, by have := B_pos; omega⟩
  have hxy : x * y ≤ b1 * b1 := Nat.mul_le_mul (by omega) (by omega)
  nlinarith [hxy]

theorem muladdcarry_decomp {x y z w : Nat} (hx : x < B) (hy : y < B) (hz : z < B)
    (hw : w < B) :
    B * (muladdcarry x y z w).1 + (muladdcarry x y z w).2 = x * y + z + w ∧
    (muladdcarry x y z w).1 < B ∧ (muladdcarry x y z w).2 < B := by
  have hlt : x * y + z + w < B * B := word_mul_add_add_lt hx hy hz hw
  have hmod : (x * y + z + w) % (B * B) = x * y + z + w := Nat.mod_eq_of_lt hlt
  refine ⟨?_, ?_, ?_⟩
  · simp only [muladdcarry, hmod]
    exact Nat.div_add_mod _ B
  · simp only [muladdcarry, hmod]
    rw [Nat.div_lt_iff_lt_mul B_pos]
    exact hlt
  · simp only [muladdcarry]
    exact Nat.mod_lt _ B_pos

/-! ### Correctness of the inner reduction loop -/

theorem innerLoop_spec (u : Nat) (m : List Nat) (i : Nat)
    (hm : ∀ d ∈ m, d < B) (hu : u < B) :
    ∀ fuel j carry c, j + fuel = m.length → i + m.length ≤ c.length →
      carry < B → (∀ d ∈ c, d < B) →
      (innerLoop u m i fuel j carry c).1.length = c.length ∧
      (∀ d ∈ (innerLoop u m i fuel j carry c).1, d < B) ∧
      (innerLoop u m i fuel j carry c).2 < B ∧
      (∀ k, k < i + j → (innerLoop u m i fuel j carry c).1.getD k 0 = c.getD k 0) ∧
      val ((innerLoop u m i fuel j carry c).1.drop (i + j)) +
          B ^ fuel * (innerLoop u m i fuel j carry c).2 =
        val (c.drop (i + j)) + carry + u * val (m.drop j) := by
  intro fuel
  induction fuel with
  | zero =>
    intro j carry c hj hlen hcar hc
    have hdrop : m.drop j = [] := List.drop_eq_nil_of_le (by omega)
    refine ⟨rfl, hc, hcar, fun k _ => rfl, ?_⟩
    simp [innerLoop, hdrop, val_nil]
  | succ fuel ih =>
    intro j carry c hj hlen hcar hc
    have hjlt : j < m.length := by omega
    have hij : i + j < c.length := by omega
    have ha : m.getD j 0 < B := getD_lt hm j
    have hb : c.getD (i + j) 0 < B := getD_lt hc (i + j)
    obtain ⟨hPsum, hP1, hP2⟩ := muladdcarry_decomp (x := u) (y := m.getD j 0)
      (z := c.getD (i + j) 0) (w := carry) hu ha hb hcar
    simp only [innerLoop]
    set p := muladdcarry u (m.getD j 0) (c.getD (i + j) 0) carry with hp
    set c1 := c.set (i + j) p.2 with hc1
    have hc1len : c1.length = c.length := List.length_set c (i + j) p.2
    have hc1b : ∀ d ∈ c1, d < B := bounded_set hc hP2 (i + j)
    obtain ⟨ih1, ih2, ih3, ih4, ih5⟩ :=
      ih (j + 1) p.1 c1 (by omega) (by omega) hP1 hc1b
    set R := innerLoop u m i fuel (j + 1) p.1 c1 with hR
    refine ⟨ih1.trans hc1len, ih2, ih3, ?_, ?_⟩
    · intro k hk
      rw [ih4 k (by omega)]
      exact getD_set_ne c k (i + j) (by omega) p.2
    · have F4 : c1.drop (i + j + 1) = c.drop (i + j + 1) :=
        drop_set_of_lt c (i + j) (i + j + 1) (by omega) p.2
      have F1 : val (R.1.drop (i + j + 1)) + B ^ fuel * R.2 =
          val (c.drop (i + j + 1)) + p.1 + u * val (m.drop (j + 1)) := by
        have := ih5
        rw [show i + (j + 1) = i + j + 1 by omega, F4] at this
        exact this
      have F3 : R.1.getD (i + j) 0 = p.2 := by
        rw [ih4 (i + j) (by omega)]
        exact getD_set_self c (i + j) hij p.2
      have F2 := val_drop_getD R.1 (i + j)
      have F6 := val_drop_getD c (i + j)
      have F7 := val_drop_getD m j
      calc val (R.1.drop (i + j)) + B ^ (fuel + 1) * R.2
          = (p.2 + B * val (R.1.drop (i + j + 1))) + B ^ (fuel + 1) * R.2 := by
            rw [F2, F3]
        _ = p.2 + B * (val (R.1.drop (i + j + 1)) + B ^ fuel * R.2) := by
            rw [pow_succ]; ring
        _ = p.2 + B * (val (c.drop (i + j + 1)) + p.1 + u * val (m.drop (j + 1))) := by
            rw [F1]
        _ = (B * p.1 + p.2) + B * val (c.drop (i + j + 1)) +
              u * (B * val (m.drop (j + 1))) := by ring
        _ = (u * m.getD j 0 + c.getD (i + j) 0 + carry) + B * val (c.drop (i + j + 1)) +
              u * (B * val (m.drop (j + 1))) := by rw [hPsum]
        _ = (c.getD (i + j) 0 + B * val (c.drop (i + j + 1))) + carry +
              u * (m.getD j 0 + B * val (m.drop (j + 1))) := by ring
        _ = val (c.drop (i + j)) + carry + u * val (m.drop j) := by rw [← F6, ← F7]

theorem getD_drop : ∀ (l : List Nat) (j t : Nat), (l.drop j).getD t 0 = l.getD (j + t) 0 := by
  intro l
  induction l with
  | nil => intro j t; simp
  | cons d ds ih =>
    intro j t
    cases j with
    | zero => simp
    | succ j =>
      have hidx : j + 1 + t = j + t + 1 := by omega
      rw [List.drop_succ_cons, ih j t, hidx, List.getD_cons_succ]

/-! ### Correctness of the outer reduction loop -/

theorem redcLoop_spec (m : List Nat) (ninv : Nat) (hm : ∀ d ∈ m, d < B)
    (hn : 0 < m.length) (hninv : (m.getD 0 0 * ninv + 1) % B = 0) :
    ∀ fuel i c meta_carry, i + fuel = m.length → c.length = 2 * m.length →
      (∀ d ∈ c, d < B) → meta_carry ≤ 1 →
      (redcLoop m ninv fuel i c meta_carry).1.length = c.length ∧
      (∀ d ∈ (redcLoop m ninv fuel i c meta_carry).1, d < B) ∧
      (redcLoop m ninv fuel i c meta_carry).2 ≤ 1 ∧
      ∃ q, q < B ^ fuel ∧
        B ^ (i + fuel) * val ((redcLoop m ninv fuel i c meta_carry).1.drop (i + fuel)) +
            (redcLoop m ninv fuel i c meta_carry).2 * B ^ (m.length + i + fuel) =
          B ^ i * val (c.drop i) + meta_carry * B ^ (m.length + i) +
            q * val m * B ^ i := by
  intro fuel
  induction fuel with
  | zero =>
    intro i c meta_carry hif hclen hc hmc
    refine ⟨rfl, hc, hmc, 0, Nat.one_pos, by simp [redcLoop]⟩
  | succ fuel ih =>
    intro i c meta_carry hif hclen hc hmc
    have hilt : i < m.length := by omega
    have hci : c.getD i 0 < B := getD_lt hc i
    simp only [redcLoop]
    set u := c.getD i 0 * ninv % B with hu_def
    have hu : u < B := Nat.mod_lt _ B_pos
    have hm0 : m.getD 0 0 < B := getD_lt hm 0
    obtain ⟨hC0sum, hC0lt, hC0lo⟩ := muladdcarry_decomp (x := u) (y := m.getD 0 0)
      (z := c.getD i 0) (w := 0) hu hm0 hci B_pos
    set carry0 := (muladdcarry u (m.getD 0 0) (c.getD i 0) 0).1 with hcarry0_def
    -- the low word of the first muladdcarry is zero, by choice of u
    have hlo : (muladdcarry u (m.getD 0 0) (c.getD i 0) 0).2 = 0 := by
      have hmodeq : (u * m.getD 0 0 + c.getD i 0) % B = 0 := by
        have h1 : u ≡ c.getD i 0 * ninv [MOD B] := Nat.mod_modEq _ B
        have h2 : u * m.getD 0 0 + c.getD i 0 ≡
            c.getD i 0 * ninv * m.getD 0 0 + c.getD i 0 [MOD B] :=
          Nat.ModEq.add_right _ (Nat.ModEq.mul_right _ h1)
        have h3 : c.getD i 0 * ninv * m.getD 0 0 + c.getD i 0 =
            c.getD i 0 * (m.getD 0 0 * ninv + 1) := by ring
        have h4 : c.getD i 0 * (m.getD 0 0 * ninv + 1) ≡ c.getD i 0 * 0 [MOD B] :=
          Nat.ModEq.mul_left _ ((Nat.modEq_zero_iff_dvd).mpr (Nat.dvd_of_mod_eq_zero hninv))
        have h5 := h2.trans (h3 ▸ h4)
        simp only [Nat.mul_zero] at h5
        have h6 : (u * m.getD 0 0 + c.getD i 0) % B = 0 % B := h5
        rw [Nat.zero_mod] at h6
        exact h6
      have : (muladdcarry u (m.getD 0 0) (c.getD i 0) 0).2 =
          (u * m.getD 0 0 + c.getD i 0) % B := by
        have h6 := hC0sum
        have h7 : (u * m.getD 0 0 + c.getD i 0 + 0) % B =
            (muladdcarry u (m.getD 0 0) (c.getD i 0) 0).2 % B := by
          rw [← h6, Nat.mul_add_mod]
        rw [Nat.mod_eq_of_lt hC0lo] at h7
        simpa using h7.symm
      rw [this, hmodeq]
    have hE4 : B * carry0 = u * m.getD 0 0 + c.getD i 0 := by
      have := hC0sum
      rw [hlo] at this
      omega
    -- the inner loop
    obtain ⟨I1, I2, I3, I4, I5⟩ := innerLoop_spec u m i hm hu (m.length - 1) 1 carry0 c
      (by omega) (by omega) hC0lt hc
    set Inn := innerLoop u m i (m.length - 1) 1 carry0 c with hInn_def
    -- the adc into upper[i]
    have ha : Inn.1.getD (m.length + i) 0 < B := getD_lt I2 _
    set s := Inn.1.getD (m.length + i) 0 + Inn.2 + meta_carry with hs_def
    have hs2B : s < 2 * B := by omega
    have hsdiv : s / B ≤ 1 := by
      have : s / B < 2 := by
        rw [Nat.div_lt_iff_lt_mul B_pos]
        omega
      omega
    set c2 := Inn.1.set (m.length + i) (s % B) with hc2_def
    have hc2len : c2.length = c.length := by
      rw [hc2_def, List.length_set, I1]
    have hc2b : ∀ d ∈ c2, d < B := bounded_set I2 (Nat.mod_lt _ B_pos) _
    obtain ⟨R1, R2, R3, q1, hq1, hQ⟩ := ih (i + 1) c2 (s / B) (by omega)
      (by omega) hc2b hsdiv
    refine ⟨R1.trans hc2len, R2, R3, u + B * q1, ?_, ?_⟩
    · have hBf : B ^ (fuel + 1) = B * B ^ fuel := by rw [pow_succ, Nat.mul_comm]
      have h1 : B * (q1 + 1) ≤ B * B ^ fuel := Nat.mul_le_mul_left B (Nat.succ_le_of_lt hq1)
      have h2 : B * (q1 + 1) = B * q1 + B := by ring
      omega
    · -- the per-iteration value identity
      have hnik : m.length + i < c.length := by omega
      have hnik1 : m.length + i < Inn.1.length := by omega
      have e1 : val (c2.drop (i + 1)) + B ^ (m.length - 1) * Inn.1.getD (m.length + i) 0 =
          val (Inn.1.drop (i + 1)) + B ^ (m.length - 1) * (s % B) := by
        have hds : c2.drop (i + 1) = (Inn.1.drop (i + 1)).set (m.length - 1) (s % B) := by
          rw [hc2_def]
          have := drop_set_of_ge Inn.1 (m.length + i) (i + 1) (by omega) (s % B)
          rw [this]
          congr 1
          omega
        have hklen : m.length - 1 < (Inn.1.drop (i + 1)).length := by
          rw [List.length_drop]
          omega
        have := val_set_add (Inn.1.drop (i + 1)) (m.length - 1) hklen (s % B)
        rw [hds]
        have hgd : (Inn.1.drop (i + 1)).getD (m.length - 1) 0 =
            Inn.1.getD (m.length + i) 0 := by
          rw [getD_drop]
          congr 1
          omega
        rw [← hgd]
        exact this
      have e2 : val (Inn.1.drop (i + 1)) + B ^ (m.length - 1) * Inn.2 =
          val (c.drop (i + 1)) + carry0 + u * val (m.drop 1) := I5
      have e3 : s % B + B * (s / B) = s := Nat.mod_add_div s B
      have e5 : val (c.drop i) = c.getD i 0 + B * val (c.drop (i + 1)) := val_drop_getD c i
      have e6 : val m = m.getD 0 0 + B * val (m.drop 1) := by
        have := val_drop_getD m 0
        simpa using this
      -- key identity for one outer iteration
      have key : B ^ (i + 1) * val (c2.drop (i + 1)) + (s / B) * B ^ (m.length + i + 1) =
          B ^ i * val (c.drop i) + meta_carry * B ^ (m.length + i) +
            u * val m * B ^ i := by
        have hpow : B ^ (m.length + i) = B ^ (i + 1) * B ^ (m.length - 1) := by
          rw [← pow_add]
          congr 1
          omega
        apply Nat.add_right_cancel
          (m := B ^ (m.length + i) * Inn.1.getD (m.length + i) 0 + B ^ (m.length + i) * Inn.2)
        have e1L : B ^ (i + 1) * val (c2.drop (i + 1)) +
            B ^ (m.length + i) * Inn.1.getD (m.length + i) 0 =
            B ^ (i + 1) * val (Inn.1.drop (i + 1)) + B ^ (m.length + i) * (s % B) := by
          calc B ^ (i + 1) * val (c2.drop (i + 1)) +
              B ^ (m.length + i) * Inn.1.getD (m.length + i) 0
              = B ^ (i + 1) * (val (c2.drop (i + 1)) +
                  B ^ (m.length - 1) * Inn.1.getD (m.length + i) 0) := by rw [hpow]; ring
            _ = B ^ (i + 1) * (val (Inn.1.drop (i + 1)) + B ^ (m.length - 1) * (s % B)) := by
                rw [e1]
            _ = B ^ (i + 1) * val (Inn.1.drop (i + 1)) + B ^ (m.length + i) * (s % B) := by
                rw [hpow]; ring
        have e2L : B ^ (i + 1) * val (Inn.1.drop (i + 1)) + B ^ (m.length + i) * Inn.2 =
            B ^ (i + 1) * val (c.drop (i + 1)) + B ^ (i + 1) * carry0 +
              B ^ (i + 1) * (u * val (m.drop 1)) := by
          calc B ^ (i + 1) * val (Inn.1.drop (i + 1)) + B ^ (m.length + i) * Inn.2
              = B ^ (i + 1) * (val (Inn.1.drop (i + 1)) + B ^ (m.length - 1) * Inn.2) := by
                rw [hpow]; ring
            _ = B ^ (i + 1) * (val (c.drop (i + 1)) + carry0 + u * val (m.drop 1)) := by
                rw [e2]
            _ = B ^ (i + 1) * val (c.drop (i + 1)) + B ^ (i + 1) * carry0 +
                  B ^ (i + 1) * (u * val (m.drop 1)) := by ring
        calc B ^ (i + 1) * val (c2.drop (i + 1)) + (s / B) * B ^ (m.length + i + 1) +
            (B ^ (m.length + i) * Inn.1.getD (m.length + i) 0 + B ^ (m.length + i) * Inn.2)
            = (B ^ (i + 1) * val (c2.drop (i + 1)) +
                B ^ (m.length + i) * Inn.1.getD (m.length + i) 0) +
              (s / B) * B ^ (m.length + i + 1) + B ^ (m.length + i) * Inn.2 := by ring
          _ = (B ^ (i + 1) * val (Inn.1.drop (i + 1)) + B ^ (m.length + i) * (s % B)) +
              (s / B) * B ^ (m.length + i + 1) + B ^ (m.length + i) * Inn.2 := by rw [e1L]
          _ = (B ^ (i + 1) * val (Inn.1.drop (i + 1)) + B ^ (m.length + i) * Inn.2) +
              B ^ (m.length + i) * (s % B + B * (s / B)) := by rw [pow_succ]; ring
          _ = (B ^ (i + 1) * val (Inn.1.drop (i + 1)) + B ^ (m.length + i) * Inn.2) +
              B ^ (m.length + i) * s := by rw [e3]
          _ = (B ^ (i + 1) * val (c.drop (i + 1)) + B ^ (i + 1) * carry0 +
                B ^ (i + 1) * (u * val (m.drop 1))) + B ^ (m.length + i) * s := by rw [e2L]
          _ = (B ^ (i + 1) * val (c.drop (i + 1)) + B ^ i * (B * carry0) +
                B ^ (i + 1) * (u * val (m.drop 1))) + B ^ (m.length + i) * s := by
              rw [pow_succ]; ring
          _ = (B ^ (i + 1) * val (c.drop (i + 1)) + B ^ i * (u * m.getD 0 0 + c.getD i 0) +
                B ^ (i + 1) * (u * val (m.drop 1))) + B ^ (m.length + i) *
                (Inn.1.getD (m.length + i) 0 + Inn.2 + meta_carry) := by rw [hE4, hs_def]
          _ = B ^ i * (c.getD i 0 + B * val (c.drop (i + 1))) +
                meta_carry * B ^ (m.length + i) +
                u * (m.getD 0 0 + B * val (m.drop 1)) * B ^ i +
              (B ^ (m.length + i) * Inn.1.getD (m.length + i) 0 +
                B ^ (m.length + i) * Inn.2) := by rw [pow_succ]; ring
          _ = B ^ i * val (c.drop i) + meta_carry * B ^ (m.length + i) + u * val m * B ^ i +
              (B ^ (m.length + i) * Inn.1.getD (m.length + i) 0 +
                B ^ (m.length + i) * Inn.2) := by rw [← e5, ← e6]
      -- combine with the recursive call
      have hidx1 : i + (fuel + 1) = i + 1 + fuel := by omega
      have hidx2 : m.length + i + (fuel + 1) = m.length + (i + 1) + fuel := by omega
      have hidx3 : m.length + (i + 1) = m.length + i + 1 := by omega
      rw [hidx1, hidx2, hQ, hidx3, key]
      ring

/-! ### The final conditional subtraction and the core reduction theorem -/

theorem sub_mod_with_carry_val (carry : Nat) (u m : List Nat)
    (hul : u.length = m.length) (hub : ∀ d ∈ u, d < B) (hmb : ∀ d ∈ m, d < B)
    (hv2 : val u + carry * B ^ m.length < 2 * val m) :
    (sub_mod_with_carry carry u m).length = m.length ∧
    (∀ d ∈ sub_mod_with_carry carry u m, d < B) ∧
    val (sub_mod_with_carry carry u m) +
        (if carry = 0 ∧ val u < val m then 0 else val m) =
      val u + carry * B ^ m.length := by
  have hMlt : val m < B ^ m.length := val_lt_pow hmb
  by_cases hcond : carry = 0 ∧ val u < val m
  · rw [sub_mod_with_carry, if_pos hcond, if_pos hcond]
    exact ⟨hul, hub, by rw [hcond.1]; ring⟩
  · rw [sub_mod_with_carry, if_neg hcond, if_neg hcond]
    have hge : val m ≤ val u + carry * B ^ m.length := by
      rcases Nat.eq_zero_or_pos carry with h0 | h1
      · rcases not_and_or.mp hcond with hcc | huu
        · exact absurd h0 hcc
        · have := Nat.le_of_not_lt huu
          omega
      · have : B ^ m.length ≤ carry * B ^ m.length := Nat.le_mul_of_pos_left _ h1
        omega
    have hsub_lt : val u + carry * B ^ m.length - val m < B ^ m.length := by omega
    have hmod : (val u + carry * B ^ m.length - val m) % B ^ m.length =
        val u + carry * B ^ m.length - val m := Nat.mod_eq_of_lt hsub_lt
    refine ⟨toLimbs_length _ _, toLimbs_bounded _ _, ?_⟩
    rw [val_toLimbs, hmod]
    omega

theorem montgomery_reduction_core (lower upper m : List Nat) (ninv : Nat)
    (hm : ∀ d ∈ m, d < B) (hn : 0 < m.length)
    (hlowl : lower.length = m.length) (hupl : upper.length = m.length)
    (hlb : ∀ d ∈ lower, d < B) (hub : ∀ d ∈ upper, d < B)
    (hninv : (m.getD 0 0 * ninv + 1) % B = 0)
    (hT : val lower + B ^ m.length * val upper < val m * B ^ m.length + val m) :
    (montgomery_reduction lower upper m ninv).length = m.length ∧
    (∀ d ∈ montgomery_reduction lower upper m ninv, d < B) ∧
    val (montgomery_reduction lower upper m ninv) < val m ∧
    val (montgomery_reduction lower upper m ninv) * B ^ m.length ≡
      val lower + B ^ m.length * val upper [MOD val m] := by
  have hMlt : val m < B ^ m.length := val_lt_pow hm
  have hMpos : 0 < val m := by
    have h0 : m.getD 0 0 ≠ 0 := by
      intro h00
      rw [h00, Nat.zero_mul, Nat.zero_add, Nat.mod_eq_of_lt one_lt_B] at hninv
      exact one_ne_zero hninv
    have hvm := val_drop_getD m 0
    rw [List.drop_zero] at hvm
    omega
  have hc0len : (lower ++ upper).length = 2 * m.length := by
    rw [List.length_append]
    omega
  have hc0b : ∀ d ∈ lower ++ upper, d < B := by
    intro d hd
    rcases List.mem_append.mp hd with h | h
    · exact hlb d h
    · exact hub d h
  obtain ⟨P1, P2, P3, q, hq, hQ⟩ := redcLoop_spec m ninv hm hn hninv m.length 0
    (lower ++ upper) 0 (by omega) hc0len hc0b (by omega)
  set RL := redcLoop m ninv m.length 0 (lower ++ upper) 0 with hRL_def
  set T := val lower + B ^ m.length * val upper with hT_def
  have hTval : val (lower ++ upper) = T := by
    rw [val_append, hlowl]
  simp only [Nat.zero_add, pow_zero, Nat.one_mul, Nat.mul_one, List.drop_zero,
    Nat.zero_mul, Nat.add_zero] at hQ
  rw [hTval] at hQ
  set U := val (RL.1.drop m.length) with hU_def
  set mf := RL.2 with hmf_def
  -- hQ : B ^ m.length * U + mf * B ^ (m.length + m.length) = T + q * val m
  have hpow2 : B ^ (m.length + m.length) = B ^ m.length * B ^ m.length := by
    rw [pow_add]
  have hv : B ^ m.length * (U + mf * B ^ m.length) = T + q * val m := by
    rw [← hQ, hpow2]
    ring
  have hUlen : (RL.1.drop m.length).length = m.length := by
    rw [List.length_drop, P1, hc0len]
    omega
  have hUb : ∀ d ∈ RL.1.drop m.length, d < B := bounded_drop P2 _
  have hUlt : U < B ^ m.length := by
    have := val_lt_pow hUb
    rw [hUlen] at this
    exact this
  have hqM : q * val m ≤ (B ^ m.length - 1) * val m := by
    exact Nat.mul_le_mul_right _ (by omega)
  have hsum_lt : T + q * val m < 2 * val m * B ^ m.length := by
    have hBp : 0 < B ^ m.length := pow_pos B_pos _
    have h1 : (B ^ m.length - 1) * val m + val m = B ^ m.length * val m := by
      have h2 : B ^ m.length - 1 + 1 = B ^ m.length := by omega
      calc (B ^ m.length - 1) * val m + val m
          = (B ^ m.length - 1 + 1) * val m := by ring
        _ = B ^ m.length * val m := by rw [h2]
    have h4 : 2 * val m * B ^ m.length = val m * B ^ m.length + B ^ m.length * val m := by
      ring
    omega
  have hvlt : U + mf * B ^ m.length < 2 * val m := by
    have h1 : B ^ m.length * (U + mf * B ^ m.length) < B ^ m.length * (2 * val m) := by
      rw [hv]
      calc T + q * val m < 2 * val m * B ^ m.length := hsum_lt
        _ = B ^ m.length * (2 * val m) := by ring
    exact Nat.lt_of_mul_lt_mul_left h1
  -- evaluate the final conditional subtraction
  obtain ⟨S1, S2, S3⟩ := sub_mod_with_carry_val mf (RL.1.drop m.length) m hUlen hUb hm
    (by rw [← hU_def]; exact hvlt)
  have hred : montgomery_reduction lower upper m ninv =
      sub_mod_with_carry mf (RL.1.drop m.length) m := rfl
  rw [hred]
  refine ⟨S1, S2, ?_, ?_⟩
  · -- strictly below the modulus
    by_cases hcond : mf = 0 ∧ U < val m
    · rw [if_pos hcond] at S3
      have : val (sub_mod_with_carry mf (RL.1.drop m.length) m) =
          U + mf * B ^ m.length := by
        rw [← hU_def] at S3
        omega
      rw [this, hcond.1]
      simpa using hcond.2
    · rw [if_neg hcond] at S3
      rw [← hU_def] at S3
      omega
  · -- the congruence: output * R ≡ input  (mod m)
    have hcong : (U + mf * B ^ m.length) * B ^ m.length ≡ T [MOD val m] := by
      have h1 : (U + mf * B ^ m.length) * B ^ m.length = T + q * val m := by
        rw [← hv]
        ring
      unfold Nat.ModEq
      rw [h1, Nat.add_mul_mod_self_right]
    by_cases hcond : mf = 0 ∧ U < val m
    · rw [if_pos hcond] at S3
      rw [← hU_def] at S3
      have hveq : val (sub_mod_with_carry mf (RL.1.drop m.length) m) =
          U + mf * B ^ m.length := by omega
      rw [hveq]
      exact hcong
    · rw [if_neg hcond] at S3
      rw [← hU_def] at S3
      -- here the output value is  U + mf * B^n - val m
      have hvm : val (sub_mod_with_carry mf (RL.1.drop m.length) m) + val m =
          U + mf * B ^ m.length := S3
      unfold Nat.ModEq
      have h2 : val (sub_mod_with_carry mf (RL.1.drop m.length) m) * B ^ m.length +
          B ^ m.length * val m = (U + mf * B ^ m.length) * B ^ m.length := by
        rw [← hvm]
        ring
      have h3 : (val (sub_mod_with_carry mf (RL.1.drop m.length) m) * B ^ m.length +
          B ^ m.length * val m) % val m =
          val (sub_mod_with_carry mf (RL.1.drop m.length) m) * B ^ m.length % val m := by
        rw [Nat.add_mul_mod_self_right]
      rw [← h3, h2]
      exact hcong

theorem coprime_B_pow {M : Nat} (hodd : M % 2 = 1) (k : Nat) : Nat.Coprime (B ^ k) M := by
  have h2 : Nat.Coprime 2 M := Nat.coprime_two_left.mpr (Nat.odd_iff.mpr hodd)
  have hB : Nat.Coprime B M := by
    show Nat.Coprime (2 ^ W) M
    exact Nat.Coprime.pow_left W h2
  exact Nat.Coprime.pow_left k hB

theorem mod_neg_inv_limb (m : List Nat) (mod_neg_inv : Nat)
    (hninv : (val m * mod_neg_inv + 1) % B = 0) :
    (m.getD 0 0 * mod_neg_inv + 1) % B = 0 := by
  have hgd : m.getD 0 0 ≡ val m [MOD B] := by
    have hvm := val_drop_getD m 0
    rw [List.drop_zero] at hvm
    unfold Nat.ModEq
    rw [hvm, Nat.add_mul_mod_self_left]
  have h2 : m.getD 0 0 * mod_neg_inv + 1 ≡ val m * mod_neg_inv + 1 [MOD B] :=
    Nat.ModEq.add_right 1 (Nat.ModEq.mul_right _ hgd)
  have h4 : val m * mod_neg_inv + 1 ≡ 0 [MOD B] := by
    unfold Nat.ModEq
    rw [hninv, Nat.zero_mod]
  have h5 : m.getD 0 0 * mod_neg_inv + 1 ≡ 0 [MOD B] := h2.trans h4
  have h6 : (m.getD 0 0 * mod_neg_inv + 1) % B = 0 % B := h5
  rw [Nat.zero_mod] at h6
  exact h6

/-- C1: for every odd `n`-limb modulus `m` with `mod_neg_inv` the negated inverse of
`m` modulo `2^W`, and every double-width input `(lower, upper)` of value
`T = lower + upper * R < m * R` (with `R = 2^(n*W) = B^n`), the fixed-width
`montgomery_reduction` returns `o` with `o < m` and `o * R ≡ T (mod m)`, i.e. the
output is the input divided by `R`, modulo `m`. -/
theorem montgomery_reduction_correct (lower upper m : List Nat) (mod_neg_inv : Nat)
    (hn : 0 < m.length) (hm : ∀ d ∈ m, d < B)
    (hodd : val m % 2 = 1)
    (hninv : (val m * mod_neg_inv + 1) % B = 0)
    (hlowl : lower.length = m.length) (hupl : upper.length = m.length)
    (hlb : ∀ d ∈ lower, d < B) (hub : ∀ d ∈ upper, d < B)
    (hT : val lower + B ^ m.length * val upper < val m * B ^ m.length) :
    val (montgomery_reduction lower upper m mod_neg_inv) < val m ∧
    val (montgomery_reduction lower upper m mod_neg_inv) * B ^ m.length ≡
      val lower + B ^ m.length * val upper [MOD val m] := by
  have hninv0 : (m.getD 0 0 * mod_neg_inv + 1) % B = 0 := mod_neg_inv_limb m mod_neg_inv hninv
  obtain ⟨_, _, h1, h2⟩ := montgomery_reduction_core lower upper m mod_neg_inv hm hn
    hlowl hupl hlb hub hninv0 (by omega)
  exact ⟨h1, h2⟩

/-- C1 witness: the theorem applied to the one-limb modulus 3 (whose negated
inverse modulo `2^64` is 6148914691236517205) and input value 5. -/
theorem montgomery_reduction_correct_witness :
    val (montgomery_reduction [5] [0] [3] 6148914691236517205) < val [3] ∧
    val (montgomery_reduction [5] [0] [3] 6148914691236517205) * B ^ (1 : Nat) ≡
      val [5] + B ^ (1 : Nat) * val [0] [MOD val [3]] :=
  montgomery_reduction_correct [5] [0] [3] 6148914691236517205 (by decide)
    (by decide) (by decide) (by decide) rfl rfl (by decide) (by decide) (by decide)

/-- C7 counterexample: for the odd single-limb modulus 7 (whose negated inverse
modulo `2^64` is 10540996613548315209, as the first conjunct checks), reducing
`(lower = 0, upper = 1)` yields 1, not `R mod 7 = 2^64 mod 7 = 2` as claimed. -/
theorem redc_R_input_counterexample :
    val [7] % 2 = 1 ∧ (val [7] * 10540996613548315209 + 1) % B = 0 ∧
    val (montgomery_reduction [0] [1] [7] 10540996613548315209) ≠
      B ^ ([7] : List Nat).length % val [7] := by decide

/-- C7 (amended): for every odd single-limb modulus `m0` with `mod_neg_inv` the
correct negated inverse of `m0` modulo `2^W`, applying `montgomery_reduction` to
the double-width input `(lower = 0, upper = 1)` (of value `R = 2^W`) yields
`1 mod m0` — the input divided by `R` — rather than `R mod m0`. -/
theorem montgomery_reduction_R_input (m0 ninv : Nat) (hm0 : m0 < B)
    (hodd : m0 % 2 = 1) (hninv : (m0 * ninv + 1) % B = 0) :
    val (montgomery_reduction [0] [1] [m0] ninv) = 1 % m0 := by
  have hv0 : val [0] = 0 := by simp [val_cons, val_nil]
  have hv1 : val [1] = 1 := by simp [val_cons, val_nil]
  have hvm : val [m0] = m0 := by simp [val_cons, val_nil]
  have hm0pos : 0 < m0 := by omega
  have hlen : ([m0] : List Nat).length = 1 := rfl
  have hninv0 : (([m0] : List Nat).getD 0 0 * ninv + 1) % B = 0 := hninv
  obtain ⟨_, _, h1, h2⟩ := montgomery_reduction_core [0] [1] [m0] ninv
    (by intro d hd; simp at hd; omega) (by simp) rfl rfl
    (by intro d hd; simp at hd; have := B_pos; omega)
    (by intro d hd; simp at hd; omega) hninv0
    (by
      rw [hv0, hv1, hvm, hlen]
      have hBpos : 0 < B ^ 1 := pow_pos B_pos 1
      have h9 : 1 * B ^ 1 ≤ m0 * B ^ 1 := Nat.mul_le_mul_right _ (by omega)
      have h10 : 1 * B ^ 1 = B ^ 1 := by ring
      omega)
  rw [hvm] at h1 h2
  rw [hv0, hv1, hlen] at h2
  have h3 : val (montgomery_reduction [0] [1] [m0] ninv) * B ^ 1 ≡
      1 * B ^ 1 [MOD m0] := by
    calc val (montgomery_reduction [0] [1] [m0] ninv) * B ^ 1
        ≡ 0 + B ^ 1 * 1 [MOD m0] := h2
      _ = 1 * B ^ 1 := by ring
  have hcop : Nat.gcd m0 (B ^ 1) = 1 := (coprime_B_pow hodd 1).symm
  have h4 : val (montgomery_reduction [0] [1] [m0] ninv) ≡ 1 [MOD m0] :=
    Nat.ModEq.cancel_right_of_coprime hcop h3
  have h5 : val (montgomery_reduction [0] [1] [m0] ninv) % m0 = 1 % m0 := h4
  rw [Nat.mod_eq_of_lt h1] at h5
  exact h5

/-- C7 amended witness: the amended theorem at the modulus 7. -/
theorem montgomery_reduction_R_input_witness :
    val (montgomery_reduction [0] [1] [7] 10540996613548315209) = 1 % 7 :=
  montgomery_reduction_R_input 7 10540996613548315209 (by decide) (by decide) (by decide)

theorem boxed_mut_eq_fixed (lower upper m : List Nat) (mod_neg_inv : Nat)
    (hn : 0 < m.length) (hm : ∀ d ∈ m, d < B)
    (hninv : (val m * mod_neg_inv + 1) % B = 0)
    (hlowl : lower.length = m.length) (hupl : upper.length = m.length)
    (hlb : ∀ d ∈ lower, d < B) (hub : ∀ d ∈ upper, d < B) :
    montgomery_reduction lower upper m mod_neg_inv =
      montgomery_reduction_boxed_mut (lower ++ upper) m mod_neg_inv := by
  have hninv0 := mod_neg_inv_limb m mod_neg_inv hninv
  have hc0len : (lower ++ upper).length = 2 * m.length := by
    rw [List.length_append]; omega
  have hc0b : ∀ d ∈ lower ++ upper, d < B := by
    intro d hd
    rcases List.mem_append.mp hd with h | h
    · exact hlb d h
    · exact hub d h
  obtain ⟨P1, P2, P3, _⟩ := redcLoop_spec m mod_neg_inv hm hn hninv0 m.length 0
    (lower ++ upper) 0 (by omega) hc0len hc0b (by omega)
  simp only [montgomery_reduction, montgomery_reduction_boxed_mut]
  set RL := redcLoop m mod_neg_inv m.length 0 (lower ++ upper) 0 with hRL_def
  set u1 := RL.1.drop m.length with hu1_def
  have hu1len : u1.length = m.length := by
    rw [hu1_def, List.length_drop, P1, hc0len]; omega
  have hu1b : ∀ d ∈ u1, d < B := bounded_drop P2 _
  have hU : val u1 < B ^ m.length := by
    have := val_lt_pow hu1b
    rw [hu1len] at this
    exact this
  have hM : val m < B ^ m.length := val_lt_pow hm
  have hB2 : 2 ≤ B := one_lt_B
  have hBeven : B % 2 = 0 := by norm_num [B, W]
  have hroundtrip : toLimbs m.length (val u1) = u1 := by
    have := toLimbs_val hu1b
    rw [hu1len] at this
    exact this
  have hsbb1 : (sbb_assign u1 m).1 =
      toLimbs m.length ((val u1 + B ^ m.length - val m) % B ^ m.length) := by
    rw [sbb_assign, hu1len]
  have hsbb2 : (sbb_assign u1 m).2 = if val u1 < val m then B - 1 else 0 := rfl
  rcases Nat.le_one_iff_eq_zero_or_eq_one.mp P3 with hmf | hmf
  · -- meta-carry clear: the borrow mask is all-ones
    have hmask : B - 1 - (B - RL.2) % B = B - 1 := by
      rw [hmf, Nat.sub_zero, Nat.mod_self, Nat.sub_zero]
    by_cases hlt : val u1 < val m
    · -- underflow: the boxed form adds the modulus back; both return `u1`
      have hborrow : (B - 1 - (B - RL.2) % B) &&& (sbb_assign u1 m).2 = B - 1 := by
        rw [hmask, hsbb2, if_pos hlt, Nat.and_self]
      have hchoice : ((B - 1 - (B - RL.2) % B) &&& (sbb_assign u1 m).2) &&& 1 = 1 := by
        rw [hborrow, Nat.and_one_is_mod]
        omega
      rw [sub_mod_with_carry, if_pos ⟨hmf, hlt⟩, conditional_adc_assign,
        if_pos (by rw [hchoice]; decide)]
      have hdlt : val u1 + B ^ m.length - val m < B ^ m.length := by omega
      have hvs1 : val (sbb_assign u1 m).1 = val u1 + B ^ m.length - val m := by
        rw [hsbb1, val_toLimbs, Nat.mod_eq_of_lt (Nat.mod_lt _ (pow_pos B_pos _)),
          Nat.mod_eq_of_lt hdlt]
      have hlen1 : (sbb_assign u1 m).1.length = m.length := by
        rw [hsbb1, toLimbs_length]
      rw [hvs1, hlen1]
      have harg : val u1 + B ^ m.length - val m + val m = val u1 + B ^ m.length := by
        omega
      rw [harg, Nat.add_mod_right, Nat.mod_eq_of_lt hU, hroundtrip]
    · -- no underflow: both subtract the modulus once
      have hborrow : (B - 1 - (B - RL.2) % B) &&& (sbb_assign u1 m).2 = 0 := by
        rw [hmask, hsbb2, if_neg hlt, Nat.and_zero]
      have hchoice : ¬ ((B - 1 - (B - RL.2) % B) &&& (sbb_assign u1 m).2) &&& 1 = 1 := by
        rw [hborrow, Nat.zero_and]
        decide
      rw [sub_mod_with_carry, if_neg (by intro h; exact hlt h.2), conditional_adc_assign,
        if_neg (by simpa using hchoice)]
      rw [hsbb1, hmf]
      rw [show val u1 + B ^ m.length - val m =
        val u1 + 0 * B ^ m.length - val m + B ^ m.length by omega, Nat.add_mod_right]
  · -- meta-carry set: the borrow mask is zero, no add-back
    have hmask : B - 1 - (B - RL.2) % B = 0 := by
      rw [hmf, Nat.mod_eq_of_lt (by omega), Nat.sub_self]
    have hchoice : ¬ ((B - 1 - (B - RL.2) % B) &&& (sbb_assign u1 m).2) &&& 1 = 1 := by
      rw [hmask, Nat.zero_and, Nat.zero_and]
      decide
    rw [sub_mod_with_carry, if_neg (by intro h; omega), conditional_adc_assign,
      if_neg (by simpa using hchoice)]
    rw [hsbb1, hmf, Nat.one_mul]

/-- C3: for the same odd `n`-limb modulus, `mod_neg_inv` and double-width input,
the fixed-width `montgomery_reduction`, the output-buffer `montgomery_reduction_boxed_mut`
and the allocating `montgomery_reduction_boxed` produce the same single-width result,
even though the final conditional subtraction is coded differently in the boxed form. -/
theorem reduction_variants_agree (lower upper m : List Nat) (mod_neg_inv : Nat)
    (hn : 0 < m.length) (hm : ∀ d ∈ m, d < B)
    (hodd : val m % 2 = 1) (hninv : (val m * mod_neg_inv + 1) % B = 0)
    (hlowl : lower.length = m.length) (hupl : upper.length = m.length)
    (hlb : ∀ d ∈ lower, d < B) (hub : ∀ d ∈ upper, d < B) :
    montgomery_reduction lower upper m mod_neg_inv =
      montgomery_reduction_boxed_mut (lower ++ upper) m mod_neg_inv ∧
    montgomery_reduction_boxed (lower ++ upper) m mod_neg_inv =
      montgomery_reduction lower upper m mod_neg_inv := by
  have hmain := boxed_mut_eq_fixed lower upper m mod_neg_inv hn hm hninv
    hlowl hupl hlb hub
  exact ⟨hmain, by rw [montgomery_reduction_boxed]; exact hmain.symm⟩

/-- C3 witness: the three reduction variants agree on the modulus 3 at input value 5. -/
theorem reduction_variants_agree_witness :
    montgomery_reduction [5] [0] [3] 6148914691236517205 =
      montgomery_reduction_boxed_mut ([5] ++ [0]) [3] 6148914691236517205 ∧
    montgomery_reduction_boxed ([5] ++ [0]) [3] 6148914691236517205 =
      montgomery_reduction [5] [0] [3] 6148914691236517205 :=
  reduction_variants_agree [5] [0] [3] 6148914691236517205 (by decide) (by decide)
    (by decide) (by decide) rfl rfl (by decide) (by decide)

/-! ### The Montgomery multiplier and windowed exponentiation (`pow.rs`) -/

/-- Modelled from the spec: `MontgomeryMultiplier::mul` (`mul.rs` is not among the
given sources); per §4.3 it widening-multiplies the two operands into a `2n`-limb
scratch buffer and Montgomery-reduces (§4.2) into a fresh single-width value. -/
def mont_mul (m : List Nat) (mod_neg_inv : Nat) (a b : List Nat) : List Nat :=
  montgomery_reduction (toLimbs m.length (val a * val b))
    (toLimbs m.length (val a * val b / B ^ m.length)) m mod_neg_inv

/-- Modelled from the spec: `MontgomeryMultiplier::mul_assign` computes
`z ← reduce(z · a)` in place (§4.3). -/
def mul_assign (m : List Nat) (mod_neg_inv : Nat) (z a : List Nat) : List Nat :=
  mont_mul m mod_neg_inv z a

/-- Modelled from the spec: `MontgomeryMultiplier::square_assign` computes
`z ← reduce(z · z)` (§4.3). -/
def square_assign (m : List Nat) (mod_neg_inv : Nat) (z : List Nat) : List Nat :=
  mont_mul m mod_neg_inv z z

/-- The `WINDOW = 4` squarings performed for every window after the first
(`for _ in 1..=WINDOW` in `pow_montgomery_form`). -/
def square4 (m : List Nat) (mod_neg_inv : Nat) (z : List Nat) : List Nat :=
  square_assign m mod_neg_inv (square_assign m mod_neg_inv
    (square_assign m mod_neg_inv (square_assign m mod_neg_inv z)))

/-- The table of small powers built by `pow_montgomery_form`:
`powers[0] = r`, `powers[1] = x`, `powers[i] = multiplier.mul(powers[i-1], x)`. -/
def powersF (m : List Nat) (mod_neg_inv : Nat) (r x : List Nat) : Nat → List Nat
  | 0 => r
  | 1 => x
  | k + 2 => mont_mul m mod_neg_inv (powersF m mod_neg_inv r x (k + 1)) x

/-- The constant-time table scan of `pow_montgomery_form` (lines 102-106):
starting from a copy of `powers[0]`, every index `i = 1 .. 15` conditionally
overwrites the selection register when `i` equals `idx`. -/
def selLoop (powers : Nat → List Nat) (idx : Nat) :
    Nat → Nat → List Nat → List Nat
  | 0, _, acc => acc
  | fuel + 1, i, acc =>
    selLoop powers idx fuel (i + 1) (if i = idx then powers i else acc)

def tableSelect (powers : Nat → List Nat) (idx : Nat) : List Nat :=
  selLoop powers idx 15 1 (powers 0)

/-- The window loop of `pow_montgomery_form`: `wn + 1` is the current value of
`window_num`; each iteration decrements it, extracts the window index by
shift-and-mask, squares the accumulator four times except at the very first
(top) window — where the top-window mask is applied instead — selects the power
in constant time, and multiplies. -/
def windowLoop (m : List Nat) (mod_neg_inv : Nat) (powers : Nat → List Nat)
    (starting_limb starting_window starting_window_mask limb_num w : Nat) :
    Nat → List Nat → List Nat
  | 0, z => z
  | wn + 1, z =>
    let idx0 := (w >>> (wn * 4)) &&& 15
    let idx := if limb_num = starting_limb ∧ wn = starting_window then
      idx0 &&& starting_window_mask else idx0
    let z1 := if limb_num = starting_limb ∧ wn = starting_window then z
      else square4 m mod_neg_inv z
    windowLoop m mod_neg_inv powers starting_limb starting_window
      starting_window_mask limb_num w wn
      (mul_assign m mod_neg_inv z1 (tableSelect powers idx))

/-- The limb loop of `pow_montgomery_form`: `limb_num` runs from `starting_limb`
down to `0` (`fuel = limb_num + 1`); the starting limb begins at
`starting_window + 1`, the others at `Limb::BITS / WINDOW = 16` windows. -/
def limbLoop (m : List Nat) (mod_neg_inv : Nat) (powers : Nat → List Nat)
    (exponent : List Nat) (starting_limb starting_window starting_window_mask : Nat) :
    Nat → List Nat → List Nat
  | 0, z => z
  | fuel + 1, z =>
    limbLoop m mod_neg_inv powers exponent starting_limb starting_window
      starting_window_mask fuel
      (windowLoop m mod_neg_inv powers starting_limb starting_window
        starting_window_mask fuel (exponent.getD fuel 0)
        (if fuel = starting_limb then starting_window + 1 else W / 4) z)

/-- `pow_montgomery_form` from `pow.rs`: fixed-window (4-bit) left-to-right
modular exponentiation in Montgomery form; `exponent_bits` low bits of the
exponent are used. -/
def pow_montgomery_form (x exponent : List Nat) (exponent_bits : Nat)
    (m r : List Nat) (mod_neg_inv : Nat) : List Nat :=
  if exponent_bits = 0 then r
  else
    limbLoop m mod_neg_inv (powersF m mod_neg_inv r x) exponent
      ((exponent_bits - 1) / W) ((exponent_bits - 1) % W / 4)
      ((1 <<< ((exponent_bits - 1) % W % 4 + 1)) - 1)
      ((exponent_bits - 1) / W + 1) r

/-- `BoxedResidueParams` (per-modulus Montgomery constants, spec §2 item 6). -/
structure ResidueParams where
  modulus : List Nat
  r : List Nat
  mod_neg_inv : Nat

/-- `BoxedResidue` from `boxed_residue`: a value in Montgomery form plus its
shared parameters. -/
structure BoxedResidue where
  montgomery_form : List Nat
  residue_params : ResidueParams

/-- `BoxedResidue::pow_bounded_exp` from `pow.rs` lines 21-33. -/
def BoxedResidue.pow_bounded_exp (self : BoxedResidue) (exponent : List Nat)
    (exponent_bits : Nat) : BoxedResidue :=
  { montgomery_form := pow_montgomery_form self.montgomery_form exponent exponent_bits
      self.residue_params.modulus self.residue_params.r self.residue_params.mod_neg_inv,
    residue_params := self.residue_params }

/-- Modelled from the spec: `BoxedUint::bits_precision` is not among the given
sources; a `DynInt` holds `ceil(precision/W)` limbs (§3), so a full buffer of
`k` limbs declares `k·W` bits. -/
def bits_precision (exponent : List Nat) : Nat := W * exponent.length

/-- `BoxedResidue::pow` from `pow.rs` lines 10-14: exponentiation using the
exponent's full declared bit width. -/
def BoxedResidue.pow (self : BoxedResidue) (exponent : List Nat) : BoxedResidue :=
  self.pow_bounded_exp exponent (bits_precision exponent)

/-- Modelled from the spec: conversion out of Montgomery form (`retrieve`, an
external collaborator per §6) Montgomery-reduces the residue value with zero
upper limbs, producing `value · R⁻¹ mod modulus`. -/
def BoxedResidue.retrieve (self : BoxedResidue) : List Nat :=
  montgomery_reduction self.montgomery_form
    (List.replicate self.residue_params.modulus.length 0)
    self.residue_params.modulus self.residue_params.mod_neg_inv

/-- Reference schoolbook modular exponentiation (spec §8): repeated
multiply-then-reduce, no Montgomery form. -/
def mod_exp (x : Nat) (e : Nat) (m : Nat) : Nat :=
  match e with
  | 0 => 1 % m
  | e + 1 => mod_exp x e m * x % m

theorem mod_exp_eq (x e m : Nat) : mod_exp x e m = x ^ e % m := by
  induction e with
  | zero => simp [mod_exp]
  | succ e ih =>
    rw [mod_exp, ih, pow_succ, Nat.mod_mul_mod]

/-! ### Invariants of the exponentiation loop -/

theorem val_replicate_zero (k : Nat) : val (List.replicate k 0) = 0 := by
  rw [← toLimbs_zero_eq, val_toLimbs, Nat.zero_mod]

theorem getD_val : ∀ (l : List Nat), (∀ d ∈ l, d < B) → ∀ k : Nat,
    l.getD k 0 = val l / B ^ k % B := by
  intro l
  induction l with
  | nil =>
    intro _ k
    simp [val]
  | cons d ds ih =>
    intro h k
    have hd : d < B := h d (List.mem_cons_self d ds)
    have hds : ∀ x ∈ ds, x < B := fun x hx => h x (List.mem_cons_of_mem d hx)
    cases k with
    | zero =>
      simp only [List.getD_cons_zero, pow_zero, Nat.div_one, val_cons]
      rw [Nat.add_mul_mod_self_left, Nat.mod_eq_of_lt hd]
    | succ k =>
      have hdiv : val (d :: ds) / B = val ds := by
        rw [val_cons, Nat.add_mul_div_left _ _ B_pos, Nat.div_eq_of_lt hd, Nat.zero_add]
      rw [List.getD_cons_succ, ih hds k]
      have hpow : B ^ (k + 1) = B * B ^ k := by rw [pow_succ, Nat.mul_comm]
      rw [hpow, ← Nat.div_div_eq_div_mul, hdiv]

theorem and15 (x : Nat) : x &&& 15 = x % 16 := by
  have h := Nat.and_pow_two_sub_one_eq_mod x 4
  norm_num at h
  exact h

/-- The loop invariant data of the exponentiation: `z` is a well-formed residue
whose value is the Montgomery form of `xp ^ E`. -/
def MontRep (m : List Nat) (xp E : Nat) (z : List Nat) : Prop :=
  z.length = m.length ∧ (∀ d ∈ z, d < B) ∧ val z < val m ∧
    val z ≡ xp ^ E * B ^ m.length [MOD val m]

theorem rep_exp_congr {m : List Nat} {xp E1 E2 : Nat} {z : List Nat}
    (h : E1 = E2) (hr : MontRep m xp E1 z) : MontRep m xp E2 z := h ▸ hr

theorem mont_mul_rep (m : List Nat) (mod_neg_inv xp : Nat)
    (hn : 0 < m.length) (hm : ∀ d ∈ m, d < B) (hodd : val m % 2 = 1)
    (hninv : (m.getD 0 0 * mod_neg_inv + 1) % B = 0)
    {E1 E2 : Nat} {za zb : List Nat}
    (h1 : MontRep m xp E1 za) (h2 : MontRep m xp E2 zb) :
    MontRep m xp (E1 + E2) (mont_mul m mod_neg_inv za zb) := by
  obtain ⟨hl1, hb1, hv1, hc1⟩ := h1
  obtain ⟨hl2, hb2, hv2, hc2⟩ := h2
  have hM : val m < B ^ m.length := val_lt_pow hm
  have hBn : 0 < B ^ m.length := pow_pos B_pos _
  set p := val za * val zb with hp
  have hplt : p < val m * B ^ m.length := by
    calc p ≤ val za * B ^ m.length :=
          Nat.mul_le_mul_left _ (le_of_lt (lt_trans hv2 hM))
      _ < val m * B ^ m.length := (Nat.mul_lt_mul_right hBn).mpr hv1
  have hT : val (toLimbs m.length p) +
      B ^ m.length * val (toLimbs m.length (p / B ^ m.length)) = p := by
    rw [val_toLimbs, val_toLimbs]
    have hdivlt : p / B ^ m.length < B ^ m.length := by
      rw [Nat.div_lt_iff_lt_mul hBn]
      calc p < val m * B ^ m.length := hplt
        _ ≤ B ^ m.length * B ^ m.length := Nat.mul_le_mul_right _ (le_of_lt hM)
    rw [Nat.mod_eq_of_lt hdivlt]
    exact Nat.mod_add_div p (B ^ m.length)
  obtain ⟨cl, cb, clt, ccong⟩ := montgomery_reduction_core (toLimbs m.length p)
    (toLimbs m.length (p / B ^ m.length)) m mod_neg_inv hm hn
    (toLimbs_length _ _) (toLimbs_length _ _) (toLimbs_bounded _ _) (toLimbs_bounded _ _)
    hninv (by rw [hT]; omega)
  rw [hT] at ccong
  refine ⟨cl, cb, clt, ?_⟩
  have hchain : p ≡ xp ^ (E1 + E2) * B ^ m.length * B ^ m.length [MOD val m] := by
    have h3 : val za * val zb ≡
        (xp ^ E1 * B ^ m.length) * (xp ^ E2 * B ^ m.length) [MOD val m] :=
      Nat.ModEq.mul hc1 hc2
    have h4 : (xp ^ E1 * B ^ m.length) * (xp ^ E2 * B ^ m.length) =
        xp ^ (E1 + E2) * B ^ m.length * B ^ m.length := by
      rw [pow_add]
      ring
    rw [h4] at h3
    rw [hp]
    exact h3
  have h5 : val (mont_mul m mod_neg_inv za zb) * B ^ m.length ≡
      xp ^ (E1 + E2) * B ^ m.length * B ^ m.length [MOD val m] :=
    ccong.trans hchain
  exact Nat.ModEq.cancel_right_of_coprime ((coprime_B_pow hodd m.length).symm) h5

theorem rep_r (m : List Nat) (xp : Nat) (r : List Nat)
    (hMpos : 0 < val m)
    (hrlen : r.length = m.length) (hrb : ∀ d ∈ r, d < B)
    (hrval : val r = B ^ m.length % val m) :
    MontRep m xp 0 r := by
  refine ⟨hrlen, hrb, ?_, ?_⟩
  · rw [hrval]
    exact Nat.mod_lt _ hMpos
  · rw [hrval, pow_zero, Nat.one_mul]
    exact Nat.mod_modEq _ _

theorem powersF_rep (m : List Nat) (mod_neg_inv xp : Nat)
    (hn : 0 < m.length) (hm : ∀ d ∈ m, d < B) (hodd : val m % 2 = 1)
    (hninv : (m.getD 0 0 * mod_neg_inv + 1) % B = 0)
    {r x : List Nat} (hr : MontRep m xp 0 r) (hx : MontRep m xp 1 x) :
    ∀ k, MontRep m xp k (powersF m mod_neg_inv r x k) := by
  intro k
  induction k using Nat.strong_induction_on with
  | _ k ih =>
    match k with
    | 0 => exact hr
    | 1 => exact hx
    | k + 2 =>
      have h1 := ih (k + 1) (by omega)
      have h2 := mont_mul_rep m mod_neg_inv xp hn hm hodd hninv h1 hx
      exact rep_exp_congr (by omega) h2

theorem selLoop_out (powers : Nat → List Nat) (idx : Nat) :
    ∀ fuel i acc, idx < i → selLoop powers idx fuel i acc = acc := by
  intro fuel
  induction fuel with
  | zero => intro i acc _; rfl
  | succ fuel ih =>
    intro i acc h
    rw [selLoop, if_neg (by omega)]
    exact ih (i + 1) acc (by omega)

theorem selLoop_hit (powers : Nat → List Nat) (idx : Nat) :
    ∀ fuel i acc, i ≤ idx → idx < i + fuel →
      selLoop powers idx fuel i acc = powers idx := by
  intro fuel
  induction fuel with
  | zero => intro i acc h1 h2; omega
  | succ fuel ih =>
    intro i acc h1 h2
    by_cases hi : i = idx
    · rw [selLoop, if_pos hi]
      rcases Nat.lt_or_ge idx (i + 1) with hlt | hge
      · rw [selLoop_out powers idx fuel (i + 1) (powers i) (by omega), hi]
      · exact ih (i + 1) _ (by omega) (by omega)
    · rw [selLoop, if_neg hi]
      exact ih (i + 1) _ (by omega) (by omega)

theorem tableSelect_eq (powers : Nat → List Nat) (idx : Nat) (h : idx < 16) :
    tableSelect powers idx = powers idx := by
  rcases Nat.eq_zero_or_pos idx with h0 | hpos
  · rw [tableSelect, selLoop_out powers idx 15 1 (powers 0) (by omega), h0]
  · exact selLoop_hit powers idx 15 1 (powers 0) (by omega) (by omega)

theorem square4_rep (m : List Nat) (mod_neg_inv xp : Nat)
    (hn : 0 < m.length) (hm : ∀ d ∈ m, d < B) (hodd : val m % 2 = 1)
    (hninv : (m.getD 0 0 * mod_neg_inv + 1) % B = 0)
    {E : Nat} {z : List Nat} (hz : MontRep m xp E z) :
    MontRep m xp (16 * E) (square4 m mod_neg_inv z) := by
  have h2 := mont_mul_rep m mod_neg_inv xp hn hm hodd hninv hz hz
  have h4 := mont_mul_rep m mod_neg_inv xp hn hm hodd hninv h2 h2
  have h8 := mont_mul_rep m mod_neg_inv xp hn hm hodd hninv h4 h4
  have h16 := mont_mul_rep m mod_neg_inv xp hn hm hodd hninv h8 h8
  exact rep_exp_congr (by omega) h16

theorem windowLoop_rep (m : List Nat) (mod_neg_inv xp : Nat)
    (hn : 0 < m.length) (hm : ∀ d ∈ m, d < B) (hodd : val m % 2 = 1)
    (hninv : (m.getD 0 0 * mod_neg_inv + 1) % B = 0)
    {r x : List Nat} (hr : MontRep m xp 0 r) (hx : MontRep m xp 1 x)
    (sl sw mask lim w : Nat) :
    ∀ wn z E, (lim = sl → wn ≤ sw) → MontRep m xp E z →
      MontRep m xp (E * 16 ^ wn + w % 16 ^ wn)
        (windowLoop m mod_neg_inv (powersF m mod_neg_inv r x) sl sw mask lim w wn z) := by
  intro wn
  induction wn with
  | zero =>
    intro z E _ hz
    rw [windowLoop]
    exact rep_exp_congr (by simp [Nat.mod_one]) hz
  | succ wn ih =>
    intro z E hcond hz
    have hnotfirst : ¬ (lim = sl ∧ wn = sw) := by
      intro hh
      have := hcond hh.1
      omega
    simp only [windowLoop, if_neg hnotfirst, mul_assign]
    have hidx : (w >>> (wn * 4)) &&& 15 = w / 16 ^ wn % 16 := by
      rw [Nat.shiftRight_eq_div_pow, and15]
      congr 2
      rw [show (16 : Nat) = 2 ^ 4 by norm_num, ← pow_mul, Nat.mul_comm]
    have hidxlt : w / 16 ^ wn % 16 < 16 := Nat.mod_lt _ (by omega)
    rw [hidx, tableSelect_eq _ _ hidxlt]
    have hz1 := square4_rep m mod_neg_inv xp hn hm hodd hninv hz
    have hpow := powersF_rep m mod_neg_inv xp hn hm hodd hninv hr hx (w / 16 ^ wn % 16)
    have hz2 := mont_mul_rep m mod_neg_inv xp hn hm hodd hninv hz1 hpow
    have hrec := ih (mont_mul m mod_neg_inv (square4 m mod_neg_inv z)
      (powersF m mod_neg_inv r x (w / 16 ^ wn % 16)))
      (16 * E + w / 16 ^ wn % 16)
      (fun h1 => by have := hcond h1; omega) hz2
    refine rep_exp_congr ?_ hrec
    have hsplit : w % 16 ^ (wn + 1) = w / 16 ^ wn % 16 * 16 ^ wn + w % 16 ^ wn := by
      rw [pow_succ, Nat.mod_mul]
      ring
    rw [hsplit, pow_succ]
    ring

theorem limbLoop_rep (m : List Nat) (mod_neg_inv xp : Nat)
    (hn : 0 < m.length) (hm : ∀ d ∈ m, d < B) (hodd : val m % 2 = 1)
    (hninv : (m.getD 0 0 * mod_neg_inv + 1) % B = 0)
    {r x : List Nat} (hr : MontRep m xp 0 r) (hx : MontRep m xp 1 x)
    (e : List Nat) (he : ∀ d ∈ e, d < B) (sl sw mask : Nat) :
    ∀ fuel z E, fuel ≤ sl → MontRep m xp E z →
      MontRep m xp (E * B ^ fuel + val e % B ^ fuel)
        (limbLoop m mod_neg_inv (powersF m mod_neg_inv r x) e sl sw mask fuel z) := by
  intro fuel
  induction fuel with
  | zero =>
    intro z E _ hz
    rw [limbLoop]
    exact rep_exp_congr (by simp [Nat.mod_one]) hz
  | succ fuel ih =>
    intro z E hle hz
    have hne : ¬ fuel = sl := by omega
    simp only [limbLoop, if_neg hne]
    have hwrep := windowLoop_rep m mod_neg_inv xp hn hm hodd hninv hr hx sl sw mask
      fuel (e.getD fuel 0) (W / 4) z E (fun h1 => absurd h1 hne) hz
    have hWq : W / 4 = 16 := by norm_num [W]
    have h1616 : (16 : Nat) ^ 16 = B := by norm_num [B, W]
    have hwlt : e.getD fuel 0 < B := getD_lt he fuel
    have hwmod : e.getD fuel 0 % 16 ^ 16 = e.getD fuel 0 := by
      rw [h1616]
      exact Nat.mod_eq_of_lt hwlt
    rw [hWq] at hwrep
    rw [hwmod, h1616] at hwrep
    have hrec := ih _ (E * B + e.getD fuel 0) (by omega) hwrep
    refine rep_exp_congr ?_ hrec
    have hsplit : val e % B ^ (fuel + 1) =
        val e / B ^ fuel % B * B ^ fuel + val e % B ^ fuel := by
      rw [pow_succ, Nat.mod_mul]
      ring
    rw [hsplit, pow_succ, ← getD_val e he fuel]
    ring

theorem pow_montgomery_form_rep (m : List Nat) (mod_neg_inv xp : Nat)
    (hn : 0 < m.length) (hm : ∀ d ∈ m, d < B) (hodd : val m % 2 = 1)
    (hninv : (m.getD 0 0 * mod_neg_inv + 1) % B = 0)
    {r x : List Nat} (hr : MontRep m xp 0 r) (hx : MontRep m xp 1 x)
    (e : List Nat) (he : ∀ d ∈ e, d < B) (bits : Nat) :
    MontRep m xp (val e % 2 ^ bits)
      (pow_montgomery_form x e bits m r mod_neg_inv) := by
  by_cases hb0 : bits = 0
  · subst hb0
    rw [pow_montgomery_form, if_pos rfl]
    exact rep_exp_congr (by simp [Nat.mod_one]) hr
  · have hb1 : 1 ≤ bits := Nat.one_le_iff_ne_zero.mpr hb0
    rw [pow_montgomery_form, if_neg hb0]
    simp only [limbLoop]
    simp only [if_true]
    simp only [windowLoop, eq_self_iff_true, and_self, if_true]
    -- abbreviations
    have hsbil_lt : (bits - 1) % W < W := Nat.mod_lt _ (by norm_num [W])
    have hq3 : (bits - 1) % W % 4 < 4 := Nat.mod_lt _ (by omega)
    have hw_def : e.getD ((bits - 1) / W) 0 = val e / B ^ ((bits - 1) / W) % B :=
      getD_val e he _
    -- the extracted top-window index
    have hpow16 : (2 : Nat) ^ ((bits - 1) % W / 4 * 4) = 16 ^ ((bits - 1) % W / 4) := by
      rw [show (16 : Nat) = 2 ^ 4 by norm_num, ← pow_mul, Nat.mul_comm]
    have hdvd16 : (2 : Nat) ^ ((bits - 1) % W % 4 + 1) ∣ 16 := by
      rw [show (16 : Nat) = 2 ^ 4 by norm_num]
      exact pow_dvd_pow 2 (by omega)
    have hidx_eq : e.getD ((bits - 1) / W) 0 >>> ((bits - 1) % W / 4 * 4) &&& 15 &&&
        (1 <<< ((bits - 1) % W % 4 + 1) - 1) =
        e.getD ((bits - 1) / W) 0 / 16 ^ ((bits - 1) % W / 4) %
          2 ^ ((bits - 1) % W % 4 + 1) := by
      rw [Nat.shiftRight_eq_div_pow, and15, Nat.shiftLeft_eq, Nat.one_mul,
        Nat.and_pow_two_sub_one_eq_mod, hpow16]
      exact Nat.mod_mod_of_dvd _ hdvd16
    have hidx_lt : e.getD ((bits - 1) / W) 0 / 16 ^ ((bits - 1) % W / 4) %
        2 ^ ((bits - 1) % W % 4 + 1) < 16 := by
      have h1 : e.getD ((bits - 1) / W) 0 / 16 ^ ((bits - 1) % W / 4) %
          2 ^ ((bits - 1) % W % 4 + 1) < 2 ^ ((bits - 1) % W % 4 + 1) :=
        Nat.mod_lt _ (pow_pos (by omega) _)
      have h2 : (2 : Nat) ^ ((bits - 1) % W % 4 + 1) ≤ 2 ^ 4 :=
        Nat.pow_le_pow_right (by omega) (by omega)
      norm_num at h2
      omega
    rw [hidx_eq, tableSelect_eq _ _ hidx_lt]
    -- the first (masked) window: multiply `r` by the selected power
    have hRidx := rep_exp_congr (Nat.zero_add _) (mont_mul_rep m mod_neg_inv xp hn hm
      hodd hninv hr (powersF_rep m mod_neg_inv xp hn hm hodd hninv hr hx
        (e.getD ((bits - 1) / W) 0 / 16 ^ ((bits - 1) % W / 4) %
          2 ^ ((bits - 1) % W % 4 + 1))))
    -- the remaining windows of the starting limb
    have hWrep := windowLoop_rep m mod_neg_inv xp hn hm hodd hninv hr hx
      ((bits - 1) / W) ((bits - 1) % W / 4) (1 <<< ((bits - 1) % W % 4 + 1) - 1)
      ((bits - 1) / W) (e.getD ((bits - 1) / W) 0) ((bits - 1) % W / 4) _ _
      (fun _ => le_refl _) hRidx
    -- the remaining limbs
    have hLrep := limbLoop_rep m mod_neg_inv xp hn hm hodd hninv hr hx e he
      ((bits - 1) / W) ((bits - 1) % W / 4) (1 <<< ((bits - 1) % W % 4 + 1) - 1)
      ((bits - 1) / W) _ _ (le_refl _) hWrep
    refine rep_exp_congr ?_ (by exact hLrep)
    -- arithmetic: the consumed windows reassemble `val e mod 2^bits`
    have h1 : e.getD ((bits - 1) / W) 0 / 16 ^ ((bits - 1) % W / 4) %
          2 ^ ((bits - 1) % W % 4 + 1) * 16 ^ ((bits - 1) % W / 4) +
        e.getD ((bits - 1) / W) 0 % 16 ^ ((bits - 1) % W / 4) =
        e.getD ((bits - 1) / W) 0 % 2 ^ ((bits - 1) % W + 1) := by
      have hsplit : e.getD ((bits - 1) / W) 0 %
          (16 ^ ((bits - 1) % W / 4) * 2 ^ ((bits - 1) % W % 4 + 1)) =
          e.getD ((bits - 1) / W) 0 % 16 ^ ((bits - 1) % W / 4) +
          16 ^ ((bits - 1) % W / 4) *
            (e.getD ((bits - 1) / W) 0 / 16 ^ ((bits - 1) % W / 4) %
              2 ^ ((bits - 1) % W % 4 + 1)) := Nat.mod_mul
      have hexp : (16 : Nat) ^ ((bits - 1) % W / 4) * 2 ^ ((bits - 1) % W % 4 + 1) =
          2 ^ ((bits - 1) % W + 1) := by
        rw [← hpow16, ← pow_add]
        congr 1
        omega
      rw [hexp] at hsplit
      rw [hsplit]
      ring
    have h2 : e.getD ((bits - 1) / W) 0 % 2 ^ ((bits - 1) % W + 1) =
        val e / B ^ ((bits - 1) / W) % 2 ^ ((bits - 1) % W + 1) := by
      rw [hw_def]
      exact Nat.mod_mod_of_dvd _ (by
        show (2 : Nat) ^ ((bits - 1) % W + 1) ∣ 2 ^ W
        exact pow_dvd_pow 2 (by omega))
    have h3 : val e / B ^ ((bits - 1) / W) % 2 ^ ((bits - 1) % W + 1) *
          B ^ ((bits - 1) / W) + val e % B ^ ((bits - 1) / W) =
        val e % (B ^ ((bits - 1) / W) * 2 ^ ((bits - 1) % W + 1)) := by
      rw [Nat.mod_mul]
      ring
    have h4 : B ^ ((bits - 1) / W) * 2 ^ ((bits - 1) % W + 1) = 2 ^ bits := by
      show (2 ^ W) ^ ((bits - 1) / W) * 2 ^ ((bits - 1) % W + 1) = 2 ^ bits
      rw [← pow_mul, ← pow_add]
      congr 1
      have := Nat.div_add_mod (bits - 1) W
      omega
    rw [h1, h2]
    rw [h3, h4]

theorem retrieve_of_rep (m : List Nat) (mod_neg_inv xp E : Nat)
    (hn : 0 < m.length) (hm : ∀ d ∈ m, d < B) (hodd : val m % 2 = 1)
    (hninv : (m.getD 0 0 * mod_neg_inv + 1) % B = 0)
    {z : List Nat} (hz : MontRep m xp E z) :
    val (montgomery_reduction z (List.replicate m.length 0) m mod_neg_inv) =
      xp ^ E % val m := by
  obtain ⟨hl, hb, hv, hc⟩ := hz
  have hMpos : 0 < val m := by omega
  obtain ⟨_, _, h1, h2⟩ := montgomery_reduction_core z (List.replicate m.length 0) m
    mod_neg_inv hm hn hl (List.length_replicate _ _)
    hb (by intro d hd; rw [List.eq_of_mem_replicate hd]; exact B_pos) hninv
    (by
      rw [val_replicate_zero, Nat.mul_zero, Nat.add_zero]
      have hnn : 0 ≤ val m * B ^ m.length := Nat.zero_le _
      omega)
  rw [val_replicate_zero, Nat.mul_zero, Nat.add_zero] at h2
  have h3 : val (montgomery_reduction z (List.replicate m.length 0) m mod_neg_inv) *
      B ^ m.length ≡ xp ^ E * B ^ m.length [MOD val m] := h2.trans hc
  have h4 := Nat.ModEq.cancel_right_of_coprime ((coprime_B_pow hodd m.length).symm) h3
  have h5 : val (montgomery_reduction z (List.replicate m.length 0) m mod_neg_inv) %
      val m = xp ^ E % val m := h4
  rw [Nat.mod_eq_of_lt h1] at h5
  exact h5

/-- C2: for an odd modulus, a base `x < m` given as the Montgomery-form residue
`x_mont ≡ x · R (mod m)`, and an exponent `e` (within its declared width, with
`e < 2^exponent_bits` for the bounded variant), raising to the power by
`pow_bounded_exp` or `pow` and converting the result out of Montgomery form
yields exactly the value of the reference schoolbook modular exponentiation
`mod_exp x e m = x^e mod m`, computed without Montgomery form. -/
theorem pow_correct (m r x e : List Nat) (mod_neg_inv xp bits : Nat)
    (hn : 0 < m.length) (hm : ∀ d ∈ m, d < B) (hodd : val m % 2 = 1)
    (hninv : (val m * mod_neg_inv + 1) % B = 0)
    (hrlen : r.length = m.length) (hrb : ∀ d ∈ r, d < B)
    (hrval : val r = B ^ m.length % val m)
    (hxlen : x.length = m.length) (hxb : ∀ d ∈ x, d < B)
    (hxlt : val x < val m)
    (hxmont : val x ≡ xp * B ^ m.length [MOD val m])
    (he : ∀ d ∈ e, d < B)
    (hbits : val e < 2 ^ bits) :
    val (BoxedResidue.retrieve
        ((⟨x, ⟨m, r, mod_neg_inv⟩⟩ : BoxedResidue).pow_bounded_exp e bits)) =
      mod_exp xp (val e) (val m) ∧
    val (BoxedResidue.retrieve ((⟨x, ⟨m, r, mod_neg_inv⟩⟩ : BoxedResidue).pow e)) =
      mod_exp xp (val e) (val m) := by
  have hMpos : 0 < val m := by omega
  have hninv0 := mod_neg_inv_limb m mod_neg_inv hninv
  have hrrep : MontRep m xp 0 r := rep_r m xp r hMpos hrlen hrb hrval
  have hxrep : MontRep m xp 1 x := ⟨hxlen, hxb, hxlt, by rw [pow_one]; exact hxmont⟩
  constructor
  · have h1 := pow_montgomery_form_rep m mod_neg_inv xp hn hm hodd hninv0
      hrrep hxrep e he bits
    have h2 := rep_exp_congr (Nat.mod_eq_of_lt hbits) h1
    have h3 := retrieve_of_rep m mod_neg_inv xp (val e) hn hm hodd hninv0 h2
    rw [mod_exp_eq]
    exact h3
  · have hbits2 : val e < 2 ^ bits_precision e := by
      have h0 := val_lt_pow he
      have hBe : B ^ e.length = 2 ^ bits_precision e := by
        rw [bits_precision]
        show (2 ^ W) ^ e.length = 2 ^ (W * e.length)
        rw [← pow_mul]
      rw [hBe] at h0
      exact h0
    have h1 := pow_montgomery_form_rep m mod_neg_inv xp hn hm hodd hninv0
      hrrep hxrep e he (bits_precision e)
    have h2 := rep_exp_congr (Nat.mod_eq_of_lt hbits2) h1
    have h3 := retrieve_of_rep m mod_neg_inv xp (val e) hn hm hodd hninv0 h2
    rw [mod_exp_eq]
    exact h3

/-- C2 witness: modulus 13, base 5 (Montgomery form 2, since `5·2^64 ≡ 2 (mod 13)`),
exponent 11; both entry points produce `5^11 mod 13 = 8`. -/
theorem pow_correct_witness :
    val (BoxedResidue.retrieve
        ((⟨[2], ⟨[13], [3], 12770822820260458811⟩⟩ : BoxedResidue).pow_bounded_exp
          [11] 64)) = mod_exp 5 (val [11]) (val [13]) ∧
    val (BoxedResidue.retrieve
        ((⟨[2], ⟨[13], [3], 12770822820260458811⟩⟩ : BoxedResidue).pow [11])) =
      mod_exp 5 (val [11]) (val [13]) :=
  pow_correct [13] [3] [2] [11] 12770822820260458811 5 64 (by decide) (by decide)
    (by decide) (by decide) rfl (by decide) (by decide) rfl (by decide) (by decide)
    (by decide) (by decide) (by decide)

/-- C4: for a residue `x` of an odd modulus and exponents `e1`, `e2` within their
declared widths (sum representable as `e3` with `e3 = e1 + e2`), the Montgomery
product of `pow(x, e1)` and `pow(x, e2)` is congruent modulo `m` to
`pow(x, e1 + e2)`: exponentiation is a homomorphism from exponent addition to
multiplication in the residue ring, the product being taken via the Montgomery
multiplier. -/
theorem pow_add_homomorphism (m r x e1 e2 e3 : List Nat)
    (mod_neg_inv xp b1 b2 b3 : Nat)
    (hn : 0 < m.length) (hm : ∀ d ∈ m, d < B) (hodd : val m % 2 = 1)
    (hninv : (val m * mod_neg_inv + 1) % B = 0)
    (hrlen : r.length = m.length) (hrb : ∀ d ∈ r, d < B)
    (hrval : val r = B ^ m.length % val m)
    (hxlen : x.length = m.length) (hxb : ∀ d ∈ x, d < B)
    (hxlt : val x < val m)
    (hxmont : val x ≡ xp * B ^ m.length [MOD val m])
    (he1 : ∀ d ∈ e1, d < B) (he2 : ∀ d ∈ e2, d < B) (he3 : ∀ d ∈ e3, d < B)
    (hb1 : val e1 < 2 ^ b1) (hb2 : val e2 < 2 ^ b2) (hb3 : val e3 < 2 ^ b3)
    (hsum : val e3 = val e1 + val e2) :
    val (mont_mul m mod_neg_inv
        ((⟨x, ⟨m, r, mod_neg_inv⟩⟩ : BoxedResidue).pow_bounded_exp e1 b1).montgomery_form
        ((⟨x, ⟨m, r, mod_neg_inv⟩⟩ : BoxedResidue).pow_bounded_exp e2 b2).montgomery_form) ≡
      val (((⟨x, ⟨m, r, mod_neg_inv⟩⟩ : BoxedResidue).pow_bounded_exp e3 b3).montgomery_form)
      [MOD val m] := by
  have hMpos : 0 < val m := by omega
  have hninv0 := mod_neg_inv_limb m mod_neg_inv hninv
  have hrrep : MontRep m xp 0 r := rep_r m xp r hMpos hrlen hrb hrval
  have hxrep : MontRep m xp 1 x := ⟨hxlen, hxb, hxlt, by rw [pow_one]; exact hxmont⟩
  have h1 := rep_exp_congr (Nat.mod_eq_of_lt hb1)
    (pow_montgomery_form_rep m mod_neg_inv xp hn hm hodd hninv0 hrrep hxrep e1 he1 b1)
  have h2 := rep_exp_congr (Nat.mod_eq_of_lt hb2)
    (pow_montgomery_form_rep m mod_neg_inv xp hn hm hodd hninv0 hrrep hxrep e2 he2 b2)
  have h3 := rep_exp_congr (Nat.mod_eq_of_lt hb3)
    (pow_montgomery_form_rep m mod_neg_inv xp hn hm hodd hninv0 hrrep hxrep e3 he3 b3)
  have hprod := mont_mul_rep m mod_neg_inv xp hn hm hodd hninv0 h1 h2
  obtain ⟨_, _, _, hcl⟩ := hprod
  obtain ⟨_, _, _, hcr⟩ := rep_exp_congr hsum h3
  exact hcl.trans hcr.symm

/-- C4 witness: modulus 13, base 5 in Montgomery form, exponents 3 and 8 versus 11. -/
theorem pow_add_homomorphism_witness :
    val (mont_mul [13] 12770822820260458811
        ((⟨[2], ⟨[13], [3], 12770822820260458811⟩⟩ : BoxedResidue).pow_bounded_exp
          [3] 64).montgomery_form
        ((⟨[2], ⟨[13], [3], 12770822820260458811⟩⟩ : BoxedResidue).pow_bounded_exp
          [8] 64).montgomery_form) ≡
      val (((⟨[2], ⟨[13], [3], 12770822820260458811⟩⟩ : BoxedResidue).pow_bounded_exp
          [11] 64).montgomery_form) [MOD val [13]] :=
  pow_add_homomorphism [13] [3] [2] [3] [8] [11] 12770822820260458811 5 64 64 64
    (by decide) (by decide) (by decide) (by decide) rfl (by decide) (by decide) rfl
    (by decide) (by decide) (by decide) (by decide) (by decide) (by decide)
    (by decide) (by decide) (by decide) (by decide)

/-! ### Operation traces of the exponentiation (constant-time contract) -/

/-- One observable primitive operation of `pow_montgomery_form`: a Montgomery
squaring, a Montgomery multiplication, or one read of a power-table entry
during the constant-time scan. -/
inductive PowOp where
  | square : PowOp
  | mul : PowOp
  | tableRead : Nat → PowOp
deriving DecidableEq

/-- `selLoop`, instrumented with the table entries it reads. -/
def selLoopTraced (powers : Nat → List Nat) (idx : Nat) :
    Nat → Nat → List Nat → List Nat × List PowOp
  | 0, _, acc => (acc, [])
  | fuel + 1, i, acc =>
    let rest := selLoopTraced powers idx fuel (i + 1) (if i = idx then powers i else acc)
    (rest.1, PowOp.tableRead i :: rest.2)

/-- The constant-time table lookup, instrumented: the initial copy reads entry 0,
then the scan reads entries 1 through 15. -/
def tableSelectTraced (powers : Nat → List Nat) (idx : Nat) : List Nat × List PowOp :=
  (( selLoopTraced powers idx 15 1 (powers 0)).1,
    PowOp.tableRead 0 :: (selLoopTraced powers idx 15 1 (powers 0)).2)

/-- The window loop, instrumented: four squarings for every window except the
first (top) one, then a full table scan, then one multiplication. -/
def windowLoopTraced (m : List Nat) (mod_neg_inv : Nat) (powers : Nat → List Nat)
    (starting_limb starting_window starting_window_mask limb_num w : Nat) :
    Nat → List Nat → List Nat × List PowOp
  | 0, z => (z, [])
  | wn + 1, z =>
    let idx0 := (w >>> (wn * 4)) &&& 15
    let idx := if limb_num = starting_limb ∧ wn = starting_window then
      idx0 &&& starting_window_mask else idx0
    let z1 := if limb_num = starting_limb ∧ wn = starting_window then z
      else square4 m mod_neg_inv z
    let tr1 : List PowOp := if limb_num = starting_limb ∧ wn = starting_window then []
      else [PowOp.square, PowOp.square, PowOp.square, PowOp.square]
    let sel := tableSelectTraced powers idx
    let rest := windowLoopTraced m mod_neg_inv powers starting_limb starting_window
      starting_window_mask limb_num w wn (mul_assign m mod_neg_inv z1 sel.1)
    (rest.1, tr1 ++ sel.2 ++ [PowOp.mul] ++ rest.2)

/-- The limb loop, instrumented. -/
def limbLoopTraced (m : List Nat) (mod_neg_inv : Nat) (powers : Nat → List Nat)
    (exponent : List Nat) (starting_limb starting_window starting_window_mask : Nat) :
    Nat → List Nat → List Nat × List PowOp
  | 0, z => (z, [])
  | fuel + 1, z =>
    let w := windowLoopTraced m mod_neg_inv powers starting_limb starting_window
      starting_window_mask fuel (exponent.getD fuel 0)
      (if fuel = starting_limb then starting_window + 1 else W / 4) z
    let rest := limbLoopTraced m mod_neg_inv powers exponent starting_limb
      starting_window starting_window_mask fuel w.1
    (rest.1, w.2 ++ rest.2)

/-- `pow_montgomery_form`, instrumented with its operation trace: the table
build performs 14 multiplications (`powers[2] .. powers[15]`), then the window
walk runs. -/
def pow_montgomery_form_traced (x exponent : List Nat) (exponent_bits : Nat)
    (m r : List Nat) (mod_neg_inv : Nat) : List Nat × List PowOp :=
  if exponent_bits = 0 then (r, [])
  else
    ((limbLoopTraced m mod_neg_inv (powersF m mod_neg_inv r x) exponent
        ((exponent_bits - 1) / W) ((exponent_bits - 1) % W / 4)
        ((1 <<< ((exponent_bits - 1) % W % 4 + 1)) - 1)
        ((exponent_bits - 1) / W + 1) r).1,
      List.replicate 14 PowOp.mul ++
        (limbLoopTraced m mod_neg_inv (powersF m mod_neg_inv r x) exponent
          ((exponent_bits - 1) / W) ((exponent_bits - 1) % W / 4)
          ((1 <<< ((exponent_bits - 1) % W % 4 + 1)) - 1)
          ((exponent_bits - 1) / W + 1) r).2)

/-- C6: for every residue `x` (any base value, any exponent), `pow_bounded_exp`
with `exponent_bits = 0` returns the Montgomery-form representation of 1 — the
residue whose `montgomery_form` equals `residue_params.r` — and its operation
trace is empty: no power table is built and no multiplier work is performed. -/
theorem pow_bounded_exp_zero (s : BoxedResidue) (e : List Nat) :
    (s.pow_bounded_exp e 0).montgomery_form = s.residue_params.r ∧
    (pow_montgomery_form_traced s.montgomery_form e 0 s.residue_params.modulus
      s.residue_params.r s.residue_params.mod_neg_inv).2 = [] :=
  ⟨rfl, rfl⟩

theorem selLoopTraced_fst (powers : Nat → List Nat) (idx : Nat) :
    ∀ fuel i acc, (selLoopTraced powers idx fuel i acc).1 =
      selLoop powers idx fuel i acc := by
  intro fuel
  induction fuel with
  | zero => intro i acc; rfl
  | succ fuel ih =>
    intro i acc
    simp only [selLoopTraced, selLoop]
    exact ih (i + 1) _

theorem selLoopTraced_snd (powers : Nat → List Nat) (idx : Nat) :
    ∀ fuel i acc, (selLoopTraced powers idx fuel i acc).2 =
      (List.range fuel).map (fun t => PowOp.tableRead (i + t)) := by
  intro fuel
  induction fuel with
  | zero => intro i acc; rfl
  | succ fuel ih =>
    intro i acc
    simp only [selLoopTraced, ih (i + 1), List.range_succ_eq_map, List.map_cons,
      List.map_map]
    rw [List.cons.injEq]
    refine ⟨by simp, ?_⟩
    apply List.map_congr_left
    intro t _
    simp only [Function.comp_apply, PowOp.tableRead.injEq]
    omega

theorem tableSelectTraced_fst (powers : Nat → List Nat) (idx : Nat) :
    (tableSelectTraced powers idx).1 = tableSelect powers idx := by
  simp only [tableSelectTraced, tableSelect, selLoopTraced_fst]

theorem tableSelectTraced_snd (powers : Nat → List Nat) (idx : Nat) :
    (tableSelectTraced powers idx).2 = (List.range 16).map PowOp.tableRead := rfl

theorem windowLoopTraced_fst (m : List Nat) (mod_neg_inv : Nat) (powers : Nat → List Nat)
    (sl sw mask lim w : Nat) :
    ∀ wn z, (windowLoopTraced m mod_neg_inv powers sl sw mask lim w wn z).1 =
      windowLoop m mod_neg_inv powers sl sw mask lim w wn z := by
  intro wn
  induction wn with
  | zero => intro z; rfl
  | succ wn ih =>
    intro z
    simp only [windowLoopTraced, windowLoop, tableSelectTraced_fst]
    exact ih _

theorem limbLoopTraced_fst (m : List Nat) (mod_neg_inv : Nat) (powers : Nat → List Nat)
    (e : List Nat) (sl sw mask : Nat) :
    ∀ fuel z, (limbLoopTraced m mod_neg_inv powers e sl sw mask fuel z).1 =
      limbLoop m mod_neg_inv powers e sl sw mask fuel z := by
  intro fuel
  induction fuel with
  | zero => intro z; rfl
  | succ fuel ih =>
    intro z
    simp only [limbLoopTraced, limbLoop, windowLoopTraced_fst]
    exact ih _

theorem windowLoopTraced_snd_indep (sl sw lim : Nat) :
    ∀ wn (m1 m2 : List Nat) (n1 n2 : Nat) (p1 p2 : Nat → List Nat)
      (mask1 mask2 w1 w2 : Nat) (z1 z2 : List Nat),
      (windowLoopTraced m1 n1 p1 sl sw mask1 lim w1 wn z1).2 =
        (windowLoopTraced m2 n2 p2 sl sw mask2 lim w2 wn z2).2 := by
  intro wn
  induction wn with
  | zero => intro _ _ _ _ _ _ _ _ _ _ _ _; rfl
  | succ wn ih =>
    intro m1 m2 n1 n2 p1 p2 mask1 mask2 w1 w2 z1 z2
    simp only [windowLoopTraced, tableSelectTraced_snd]
    rw [ih m1 m2 n1 n2 p1 p2 mask1 mask2 w1 w2 _ _]

theorem limbLoopTraced_snd_indep (sl sw : Nat) :
    ∀ fuel (m1 m2 e1 e2 : List Nat) (n1 n2 : Nat) (p1 p2 : Nat → List Nat)
      (mask1 mask2 : Nat) (z1 z2 : List Nat),
      (limbLoopTraced m1 n1 p1 e1 sl sw mask1 fuel z1).2 =
        (limbLoopTraced m2 n2 p2 e2 sl sw mask2 fuel z2).2 := by
  intro fuel
  induction fuel with
  | zero => intro _ _ _ _ _ _ _ _ _ _ _ _; rfl
  | succ fuel ih =>
    intro m1 m2 e1 e2 n1 n2 p1 p2 mask1 mask2 z1 z2
    simp only [limbLoopTraced]
    rw [windowLoopTraced_snd_indep sl sw fuel (if fuel = sl then sw + 1 else W / 4)
      m1 m2 n1 n2 p1 p2 mask1 mask2 (e1.getD fuel 0) (e2.getD fuel 0) z1 z2]
    rw [ih m1 m2 e1 e2 n1 n2 p1 p2 mask1 mask2 _ _]

theorem pow_montgomery_form_traced_fst (x e : List Nat) (bits : Nat)
    (m r : List Nat) (mod_neg_inv : Nat) :
    (pow_montgomery_form_traced x e bits m r mod_neg_inv).1 =
      pow_montgomery_form x e bits m r mod_neg_inv := by
  by_cases hb : bits = 0
  · subst hb; rfl
  · rw [pow_montgomery_form_traced, pow_montgomery_form, if_neg hb, if_neg hb,
      limbLoopTraced_fst]

/-- C5: for fixed `exponent_bits > 0` and any two exponents of the same declared
width, both below `2^exponent_bits`, the instrumented `pow_montgomery_form`
produces the identical sequence of squarings, multiplications and table scans —
the operation trace depends only on `exponent_bits`, never on the exponent's
value — and every constant-time table lookup reads all 16 table entries
regardless of the selected index.  (The last conjunct ties the instrumented
function to the uninstrumented one.) -/
theorem pow_bounded_exp_constant_trace (x e e2 : List Nat) (bits : Nat)
    (m r : List Nat) (mod_neg_inv : Nat)
    (hpos : 0 < bits) (hlen : e.length = e2.length)
    (hb1 : val e < 2 ^ bits) (hb2 : val e2 < 2 ^ bits) :
    (pow_montgomery_form_traced x e bits m r mod_neg_inv).2 =
      (pow_montgomery_form_traced x e2 bits m r mod_neg_inv).2 ∧
    (∀ (powers : Nat → List Nat) (idx : Nat),
      (tableSelectTraced powers idx).2 = (List.range 16).map PowOp.tableRead) ∧
    (pow_montgomery_form_traced x e bits m r mod_neg_inv).1 =
      pow_montgomery_form x e bits m r mod_neg_inv := by
  have hb0 : ¬ bits = 0 := by omega
  refine ⟨?_, fun powers idx => tableSelectTraced_snd powers idx,
    pow_montgomery_form_traced_fst x e bits m r mod_neg_inv⟩
  rw [pow_montgomery_form_traced, pow_montgomery_form_traced, if_neg hb0, if_neg hb0]
  rw [limbLoopTraced_snd_indep ((bits - 1) / W) ((bits - 1) % W / 4)
    ((bits - 1) / W + 1) m m e e2 mod_neg_inv mod_neg_inv
    (powersF m mod_neg_inv r x) (powersF m mod_neg_inv r x)
    ((1 <<< ((bits - 1) % W % 4 + 1)) - 1) ((1 <<< ((bits - 1) % W % 4 + 1)) - 1) r r]

/-- C5 witness: the theorem at `exponent_bits = 5` with exponents 3 and 17 over
the modulus 13. -/
theorem pow_bounded_exp_constant_trace_witness :
    (0 : Nat) < 5 ∧
    ((pow_montgomery_form_traced [2] [3] 5 [13] [3] 12770822820260458811).2 =
      (pow_montgomery_form_traced [2] [17] 5 [13] [3] 12770822820260458811).2 ∧
    (∀ (powers : Nat → List Nat) (idx : Nat),
      (tableSelectTraced powers idx).2 = (List.range 16).map PowOp.tableRead) ∧
    (pow_montgomery_form_traced [2] [3] 5 [13] [3] 12770822820260458811).1 =
      pow_montgomery_form [2] [3] 5 [13] [3] 12770822820260458811) :=
  ⟨by decide, pow_bounded_exp_constant_trace [2] [3] [17] 5 [13] [3]
    12770822820260458811 (by decide) rfl (by decide) (by decide)⟩

/-! ### Right-shift primitives (`shr.rs`) -/

/-- Modelled from the spec: `CtChoice`/`Uint::ct_select` are external
constant-time primitives (§9, "select-without-branch"); semantically, select
the second operand when the choice is set. -/
def ct_select (a b : List Nat) (c : Bool) : List Nat := if c then b else a

/-- `Uint::shr_vartime` from `shr.rs`: decomposes the shift into whole-limb and
sub-limb parts; returns all-zero limbs when `shift > BITS` (with `BITS = W·L`);
otherwise limb `i` takes limb `i + full_shifts`, shifted right by `small_shift`
with the low bits of the next-higher limb OR-ed in. -/
def shr_vartime (L : Nat) (x : List Nat) (shift : Nat) : List Nat :=
  let full_shifts := shift / W
  let small_shift := shift &&& (W - 1)
  if shift > W * L then List.replicate L 0
  else if small_shift = 0 then
    (List.range L).map (fun i =>
      if i < L - full_shifts then x.getD (i + full_shifts) 0 else 0)
  else
    (List.range L).map (fun i =>
      if i < L - full_shifts then
        (x.getD (i + full_shifts) 0 >>> small_shift) |||
          (if i < L - 1 - full_shifts then
            x.getD (i + full_shifts + 1) 0 <<< (W - small_shift) % B else 0)
      else 0)

/-- Modelled from the spec: the ladder's stage count `Self::LOG2_BITS + 1`
("⌈log2(BITS)⌉+1 stages", §4.1); `Nat.log2 BITS + 1` stages cover every bit
index of a shift amount below `BITS`. -/
def log2Bits (L : Nat) : Nat := Nat.log2 (W * L)

/-- The doubling ladder of `Uint::shr`: at stage `i`, shift by `2^i` and select
on bit `i` of the (reduced) shift amount. -/
def shrLadder (L shift : Nat) : Nat → Nat → List Nat → List Nat
  | 0, _, result => result
  | fuel + 1, i, result =>
    shrLadder L shift fuel (i + 1)
      (ct_select result (shr_vartime L result (1 <<< i))
        (decide ((shift >>> i) &&& 1 = 1)))

/-- `Uint::shr` from `shr.rs`: constant-time right shift; the shift amount is
reduced modulo `BITS`, the ladder applies the power-of-two shifts, and a final
select clamps out-of-range shifts to zero. -/
def shr (L : Nat) (x : List Nat) (shift : Nat) : List Nat :=
  ct_select (shrLadder L (shift % (W * L)) (log2Bits L + 1) 0 x)
    (List.replicate L 0) (decide (¬ shift < W * L))

/-- Modelled from the spec: `Uint::shl_vartime` is not among the given sources;
mirroring `shr_vartime` (§4.1, §4.1 wide-shift description), it shifts left,
wraps at `2^BITS`, and yields zero when the shift exceeds `BITS`. -/
def shl_vartime (L : Nat) (x : List Nat) (shift : Nat) : List Nat :=
  if shift > W * L then List.replicate L 0
  else toLimbs L (val x <<< shift)

/-- Modelled from the spec: `Uint::bitor` (external collaborator), the limbwise
bitwise OR. -/
def bitor (a b : List Nat) : List Nat := List.zipWith Nat.lor a b

/-- `Uint::shr_vartime_wide` from `shr.rs`: shifts the double-width `(lower,
upper)`; the new upper half directly, and the new lower half from `lower`'s own
shift OR-ed with the bits shifted in from `upper`. -/
def shr_vartime_wide (L : Nat) (lower upper : List Nat) (shift : Nat) :
    List Nat × List Nat :=
  let new_upper := shr_vartime L upper shift
  let lower1 := shr_vartime L lower shift
  let lower2 := if shift ≥ W * L then
      bitor lower1 (shr_vartime L upper (shift - W * L))
    else bitor lower1 (shl_vartime L upper (W * L - shift))
  (lower2, new_upper)

/-! ### Shift-level helper lemmas -/

theorem list_ext_getD : ∀ (l1 l2 : List Nat), l1.length = l2.length →
    (∀ i, i < l1.length → l1.getD i 0 = l2.getD i 0) → l1 = l2 := by
  intro l1
  induction l1 with
  | nil =>
    intro l2 hlen _
    cases l2 with
    | nil => rfl
    | cons d ds => simp at hlen
  | cons d ds ih =>
    intro l2 hlen hget
    cases l2 with
    | nil => simp at hlen
    | cons d2 ds2 =>
      have h0 := hget 0 (by simp)
      simp only [List.getD_cons_zero] at h0
      have htail := ih ds2 (by simpa using hlen)
        (fun i hi => by simpa using hget (i + 1) (by simpa using hi))
      rw [h0, htail]

theorem getD_range_map (L : Nat) (f : Nat → Nat) :
    ∀ i, i < L → ((List.range L).map f).getD i 0 = f i := by
  induction L with
  | zero => intro i hi; omega
  | succ L ih =>
    intro i hi
    rcases Nat.lt_or_ge i L with h | h
    · rw [List.range_succ, List.map_append, List.getD_append _ _ _ _ (by simpa using h)]
      exact ih i h
    · have hiL : i = L := by omega
      subst hiL
      rw [List.range_succ, List.map_append]
      rw [List.getD_append_right _ _ _ _ (by simp)]
      simp

theorem lt_two_pow_log2_succ (n : Nat) : n < 2 ^ (Nat.log2 n + 1) := by
  rw [Nat.log2_eq_log_two]
  exact Nat.lt_pow_succ_log_self (by norm_num) n

theorem lor_disjoint {u : Nat} (t k : Nat) (hu : u < 2 ^ k) :
    u ||| 2 ^ k * t = u + 2 ^ k * t := by
  rw [Nat.lor_comm, ← Nat.mul_add_lt_is_or hu t, Nat.add_comm]

theorem lor_digit_split (d1 d2 r1 r2 : Nat) (h1 : d1 < B) (h2 : d2 < B) :
    (d1 + B * r1) ||| (d2 + B * r2) = (d1 ||| d2) + B * (r1 ||| r2) := by
  have h1W : d1 < 2 ^ W := h1
  have h2W : d2 < 2 ^ W := h2
  have h12 : d1 ||| d2 < 2 ^ W := Nat.or_lt_two_pow h1W h2W
  have e1 : d1 + B * r1 = 2 ^ W * r1 ||| d1 := by
    rw [Nat.add_comm]
    exact Nat.mul_add_lt_is_or h1W r1
  have e2 : d2 + B * r2 = 2 ^ W * r2 ||| d2 := by
    rw [Nat.add_comm]
    exact Nat.mul_add_lt_is_or h2W r2
  have e3 : (d1 ||| d2) + B * (r1 ||| r2) = 2 ^ W * (r1 ||| r2) ||| (d1 ||| d2) := by
    rw [Nat.add_comm]
    exact Nat.mul_add_lt_is_or h12 _
  rw [e1, e2, e3]
  apply Nat.eq_of_testBit_eq
  intro i
  simp only [Nat.testBit_or, Nat.testBit_mul_pow_two]
  cases hdec : decide (i ≥ W) <;> cases h1 : Nat.testBit r1 (i - W) <;>
    cases h2 : Nat.testBit r2 (i - W) <;> cases h3 : Nat.testBit d1 i <;>
    cases h4 : Nat.testBit d2 i <;> rfl

theorem val_bitor : ∀ (a b : List Nat), a.length = b.length →
    (∀ d ∈ a, d < B) → (∀ d ∈ b, d < B) →
    val (bitor a b) = val a ||| val b := by
  intro a
  induction a with
  | nil =>
    intro b hlen _ _
    cases b with
    | nil => rfl
    | cons d ds => simp at hlen
  | cons d ds ih =>
    intro b hlen ha hb
    cases b with
    | nil => simp at hlen
    | cons d2 ds2 =>
      have hd : d < B := ha d (List.mem_cons_self _ _)
      have hd2 : d2 < B := hb d2 (List.mem_cons_self _ _)
      have htail := ih ds2 (by simpa using hlen)
        (fun t ht => ha t (List.mem_cons_of_mem _ ht))
        (fun t ht => hb t (List.mem_cons_of_mem _ ht))
      have htail2 : val (List.zipWith Nat.lor ds ds2) = val ds ||| val ds2 := htail
      show val (Nat.lor d d2 :: List.zipWith Nat.lor ds ds2) = _
      rw [val_cons, htail2]
      exact (lor_digit_split d d2 (val ds) (val ds2) hd hd2).symm

theorem val_div_high {x : List Nat} {L k : Nat} (hxl : x.length = L)
    (hxb : ∀ d ∈ x, d < B) (h : L ≤ k) : val x / B ^ k = 0 := by
  apply Nat.div_eq_of_lt
  calc val x < B ^ L := by rw [← hxl]; exact val_lt_pow hxb
    _ ≤ B ^ k := Nat.pow_le_pow_right (le_of_lt one_lt_B) h

theorem mul_mod_two_pow_split (b s t : Nat) :
    b * 2 ^ t % 2 ^ (s + t) = 2 ^ t * (b % 2 ^ s) := by
  conv_lhs => rw [← Nat.div_add_mod b (2 ^ s)]
  have h1 : (2 ^ s * (b / 2 ^ s) + b % 2 ^ s) * 2 ^ t =
      b % 2 ^ s * 2 ^ t + 2 ^ (s + t) * (b / 2 ^ s) := by
    rw [pow_add]
    ring
  rw [h1, Nat.add_mul_mod_self_left]
  have h2 : b % 2 ^ s * 2 ^ t < 2 ^ (s + t) := by
    rw [pow_add]
    exact Nat.mul_lt_mul_of_lt_of_le (Nat.mod_lt _ (pow_pos (by norm_num) _))
      (le_refl _) (pow_pos (by norm_num) _)
  rw [Nat.mod_eq_of_lt h2, Nat.mul_comm]

theorem sublimb_digit (Y sm : Nat) (h1 : 0 < sm) (h2 : sm < W) :
    Y / 2 ^ sm % B = Y % B / 2 ^ sm + 2 ^ (W - sm) * (Y / B % 2 ^ sm) := by
  have hsplit : (2 : Nat) ^ sm * 2 ^ (W - sm) = B := by
    show _ = 2 ^ W
    rw [← pow_add]
    congr 1
    omega
  have hY : Y = Y % B + 2 ^ sm * (2 ^ (W - sm) * (Y / B)) := by
    rw [← Nat.mul_assoc, hsplit]
    exact (Nat.mod_add_div Y B).symm
  have hdiv : Y / 2 ^ sm = Y % B / 2 ^ sm + 2 ^ (W - sm) * (Y / B) := by
    conv_lhs => rw [hY]
    rw [Nat.add_mul_div_left _ _ (pow_pos (by norm_num) sm)]
  rw [hdiv]
  have hexp : 2 ^ (W - sm) * (Y / B) =
      2 ^ (W - sm) * (Y / B % 2 ^ sm) + B * (Y / B / 2 ^ sm) := by
    conv_lhs => rw [← Nat.div_add_mod (Y / B) (2 ^ sm)]
    rw [← hsplit]
    ring
  have hu : Y % B / 2 ^ sm < 2 ^ (W - sm) := by
    rw [Nat.div_lt_iff_lt_mul (pow_pos (by norm_num) sm)]
    calc Y % B < B := Nat.mod_lt _ B_pos
      _ = 2 ^ (W - sm) * 2 ^ sm := by rw [Nat.mul_comm, hsplit]
  have hbound : Y % B / 2 ^ sm + 2 ^ (W - sm) * (Y / B % 2 ^ sm) < B := by
    have h5 : Y / B % 2 ^ sm + 1 ≤ 2 ^ sm := Nat.succ_le_of_lt (Nat.mod_lt _
      (pow_pos (by norm_num) sm))
    have h6 : 2 ^ (W - sm) * (Y / B % 2 ^ sm + 1) ≤ 2 ^ (W - sm) * 2 ^ sm :=
      Nat.mul_le_mul_left _ h5
    have h7 : 2 ^ (W - sm) * (Y / B % 2 ^ sm + 1) =
        2 ^ (W - sm) * (Y / B % 2 ^ sm) + 2 ^ (W - sm) := by ring
    have h8 : (2 : Nat) ^ (W - sm) * 2 ^ sm = B := by rw [Nat.mul_comm, hsplit]
    omega
  calc (Y % B / 2 ^ sm + 2 ^ (W - sm) * (Y / B)) % B
      = (Y % B / 2 ^ sm + 2 ^ (W - sm) * (Y / B % 2 ^ sm) + B * (Y / B / 2 ^ sm)) % B := by
        rw [hexp, Nat.add_assoc]
    _ = (Y % B / 2 ^ sm + 2 ^ (W - sm) * (Y / B % 2 ^ sm)) % B := by
        rw [Nat.add_mul_mod_self_left]
    _ = Y % B / 2 ^ sm + 2 ^ (W - sm) * (Y / B % 2 ^ sm) := Nat.mod_eq_of_lt hbound

theorem shr_vartime_eq (L : Nat) (x : List Nat) (hxl : x.length = L)
    (hxb : ∀ d ∈ x, d < B) (s : Nat) (hs : s ≤ W * L) :
    shr_vartime L x s = toLimbs L (val x / 2 ^ s) := by
  have hxlt : val x < B ^ L := by rw [← hxl]; exact val_lt_pow hxb
  have hNlt : val x / 2 ^ s < B ^ L := lt_of_le_of_lt (Nat.div_le_self _ _) hxlt
  have hmask : s &&& (W - 1) = s % W := by
    have h63 : W - 1 = 2 ^ 6 - 1 := by norm_num [W]
    rw [h63, Nat.and_pow_two_sub_one_eq_mod]
    norm_num [W]
  have hdm := Nat.div_add_mod s W
  have hnot : ¬ s > W * L := by omega
  have hfL : s / W ≤ L := by
    rcases Nat.eq_zero_or_pos (s % W) with h | h
    · have hW0 : 0 < W := by norm_num [W]
      have := Nat.div_le_div_right (c := W) hs
      rw [Nat.mul_div_cancel_left L hW0] at this
      omega
    · by_contra hcon
      have hL1 : L + 1 ≤ s / W := by omega
      have : W * (L + 1) ≤ W * (s / W) := Nat.mul_le_mul_left W hL1
      have hWL1 : W * (L + 1) = W * L + W := by ring
      have hsmW : s % W < W := Nat.mod_lt _ (by norm_num [W])
      omega
  have hRHS : ∀ i, (toLimbs L (val x / 2 ^ s)).getD i 0 = val x / 2 ^ s / B ^ i % B := by
    intro i
    rw [getD_val _ (toLimbs_bounded _ _) i, val_toLimbs, Nat.mod_eq_of_lt hNlt]
  simp only [shr_vartime, hmask]
  rw [if_neg hnot]
  by_cases hsm : s % W = 0
  · rw [if_pos hsm]
    apply list_ext_getD _ _ (by simp [toLimbs_length])
    intro i hi
    have hiL : i < L := by simpa using hi
    rw [getD_range_map L _ i hiL, hRHS i]
    have hpow : (2 : Nat) ^ s = B ^ (s / W) := by
      show (2 : Nat) ^ s = (2 ^ W) ^ (s / W)
      rw [← pow_mul]
      congr 1
      omega
    rw [hpow, Nat.div_div_eq_div_mul, ← pow_add]
    by_cases hil : i < L - s / W
    · rw [if_pos hil, getD_val x hxb (i + s / W), Nat.add_comm (s / W) i]
    · rw [if_neg hil, val_div_high hxl hxb (by omega), Nat.zero_mod]
  · rw [if_neg hsm]
    apply list_ext_getD _ _ (by simp [toLimbs_length])
    intro i hi
    have hiL : i < L := by simpa using hi
    rw [getD_range_map L _ i hiL, hRHS i]
    have hsmW : s % W < W := Nat.mod_lt _ (by norm_num [W])
    have hpow : (2 : Nat) ^ s = B ^ (s / W) * 2 ^ (s % W) := by
      show (2 : Nat) ^ s = (2 ^ W) ^ (s / W) * 2 ^ (s % W)
      rw [← pow_mul, ← pow_add]
      congr 1
      omega
    have hsplitdiv : val x / 2 ^ s / B ^ i = val x / B ^ (s / W + i) / 2 ^ (s % W) := by
      rw [hpow, Nat.div_div_eq_div_mul, Nat.div_div_eq_div_mul]
      congr 1
      rw [pow_add]
      ring
    rw [hsplitdiv]
    by_cases hil : i < L - s / W
    · rw [if_pos hil]
      have hY := sublimb_digit (val x / B ^ (s / W + i)) (s % W) (by omega) hsmW
      rw [hY]
      have ha : x.getD (i + s / W) 0 = val x / B ^ (s / W + i) % B := by
        rw [getD_val x hxb, Nat.add_comm i (s / W)]
      have hbdiv : val x / B ^ (s / W + i) / B = val x / B ^ (s / W + i + 1) := by
        rw [Nat.div_div_eq_div_mul, ← pow_succ]
      by_cases hil2 : i < L - 1 - s / W
      · rw [if_pos hil2]
        have hterm : x.getD (i + s / W + 1) 0 <<< (W - s % W) % B =
            2 ^ (W - s % W) * (x.getD (i + s / W + 1) 0 % 2 ^ (s % W)) := by
          rw [Nat.shiftLeft_eq,
            show B = 2 ^ (s % W + (W - s % W)) by
              show (2 : Nat) ^ W = _
              congr 1
              omega]
          exact mul_mod_two_pow_split _ _ _
        have hb2 : x.getD (i + s / W + 1) 0 % 2 ^ (s % W) =
            val x / B ^ (s / W + i + 1) % 2 ^ (s % W) := by
          rw [getD_val x hxb, Nat.mod_mod_of_dvd _ (by
            show (2 : Nat) ^ (s % W) ∣ B
            show (2 : Nat) ^ (s % W) ∣ 2 ^ W
            exact pow_dvd_pow 2 (by omega)), Nat.add_comm i (s / W)]
        have hadiv : x.getD (i + s / W) 0 >>> (s % W) < 2 ^ (W - s % W) := by
          rw [Nat.shiftRight_eq_div_pow]
          rw [Nat.div_lt_iff_lt_mul (pow_pos (by norm_num) _)]
          calc x.getD (i + s / W) 0 < B := getD_lt hxb _
            _ = 2 ^ (W - s % W) * 2 ^ (s % W) := by
              show (2 : Nat) ^ W = _
              rw [← pow_add]
              congr 1
              omega
        rw [hterm, lor_disjoint _ _ hadiv, Nat.shiftRight_eq_div_pow, ha, hbdiv, hb2]
      · rw [if_neg hil2]
        have hzero : val x / B ^ (s / W + i + 1) = 0 :=
          val_div_high hxl hxb (by omega)
        rw [Nat.or_zero, Nat.shiftRight_eq_div_pow, ha, hbdiv, hzero]
        simp
    · rw [if_neg hil]
      rw [val_div_high hxl hxb (by omega)]
      simp

theorem B_pow_eq (L : Nat) : B ^ L = 2 ^ (W * L) := by
  show (2 ^ W) ^ L = _
  rw [← pow_mul]

theorem shr_vartime_val (L : Nat) (x : List Nat) (hxl : x.length = L)
    (hxb : ∀ d ∈ x, d < B) (s : Nat) :
    shr_vartime L x s = toLimbs L (val x / 2 ^ s) := by
  rcases le_or_lt s (W * L) with h | h
  · exact shr_vartime_eq L x hxl hxb s h
  · simp only [shr_vartime]
    rw [if_pos h]
    have hz : val x / 2 ^ s = 0 := by
      apply Nat.div_eq_of_lt
      calc val x < B ^ L := by rw [← hxl]; exact val_lt_pow hxb
        _ = 2 ^ (W * L) := B_pow_eq L
        _ ≤ 2 ^ s := Nat.pow_le_pow_right (by norm_num) (by omega)
    rw [hz, toLimbs_zero_eq]

theorem shrLadder_eq (L shift : Nat) (hL : 0 < L) :
    ∀ fuel i v, v < B ^ L → i + fuel ≤ log2Bits L + 1 →
      shrLadder L shift fuel i (toLimbs L v) =
        toLimbs L (v / 2 ^ (shift / 2 ^ i % 2 ^ fuel * 2 ^ i)) := by
  intro fuel
  induction fuel with
  | zero =>
    intro i v hv _
    simp only [shrLadder]
    simp [Nat.mod_one]
  | succ fuel ih =>
    intro i v hv hbound
    simp only [shrLadder]
    have h2i : (1 : Nat) <<< i = 2 ^ i := by rw [Nat.shiftLeft_eq, Nat.one_mul]
    have hilog : i ≤ Nat.log2 (W * L) := by
      simp only [log2Bits] at hbound
      omega
    have h2iWL : 2 ^ i ≤ W * L := by
      calc 2 ^ i ≤ 2 ^ Nat.log2 (W * L) := Nat.pow_le_pow_right (by norm_num) hilog
        _ ≤ W * L := by
            rw [Nat.log2_eq_log_two]
            exact Nat.pow_log_le_self 2
              (Nat.mul_ne_zero (by norm_num [W]) (by omega))
    have hbit : shift >>> i &&& 1 = shift / 2 ^ i % 2 := by
      rw [Nat.shiftRight_eq_div_pow, Nat.and_one_is_mod]
    have hvv : val (toLimbs L v) = v := by
      rw [val_toLimbs, Nat.mod_eq_of_lt hv]
    have hshift : shr_vartime L (toLimbs L v) (1 <<< i) = toLimbs L (v / 2 ^ 2 ^ i) := by
      rw [h2i, shr_vartime_eq L _ (toLimbs_length _ _) (toLimbs_bounded _ _) _ h2iWL, hvv]
    have hdd : shift / 2 ^ i / 2 = shift / 2 ^ (i + 1) := by
      rw [Nat.div_div_eq_div_mul, ← pow_succ]
    have hsplit : shift / 2 ^ i % 2 ^ (fuel + 1) =
        shift / 2 ^ i % 2 + 2 * (shift / 2 ^ (i + 1) % 2 ^ fuel) := by
      rw [pow_succ', Nat.mod_mul, hdd]
    by_cases hb : shift / 2 ^ i % 2 = 1
    · have hsel : ct_select (toLimbs L v) (shr_vartime L (toLimbs L v) (1 <<< i))
          (decide ((shift >>> i) &&& 1 = 1)) = toLimbs L (v / 2 ^ 2 ^ i) := by
        rw [ct_select, if_pos (by simp [hbit, hb])]
        exact hshift
      rw [hsel, ih (i + 1) (v / 2 ^ 2 ^ i)
        (lt_of_le_of_lt (Nat.div_le_self _ _) hv)
        (by simp only [log2Bits] at hbound ⊢; omega)]
      congr 1
      rw [Nat.div_div_eq_div_mul, ← pow_add]
      congr 1
      rw [hsplit, hb, pow_succ]
      ring
    · have hb0 : shift / 2 ^ i % 2 = 0 := by omega
      have hsel : ct_select (toLimbs L v) (shr_vartime L (toLimbs L v) (1 <<< i))
          (decide ((shift >>> i) &&& 1 = 1)) = toLimbs L v := by
        rw [ct_select, if_neg (by simp [hbit, hb0])]
      rw [hsel, ih (i + 1) v hv (by simp only [log2Bits] at hbound ⊢; omega)]
      congr 2
      rw [hsplit, hb0, pow_succ]
      ring

theorem shr_cases (L : Nat) (hL : 0 < L) (x : List Nat) (hxl : x.length = L)
    (hxb : ∀ d ∈ x, d < B) (s : Nat) :
    shr L x s = if s < W * L then toLimbs L (val x / 2 ^ s)
      else List.replicate L 0 := by
  have hx0 : toLimbs L (val x) = x := by rw [← hxl]; exact toLimbs_val hxb
  have hvlt : val x < B ^ L := by rw [← hxl]; exact val_lt_pow hxb
  have hladder := shrLadder_eq L (s % (W * L)) hL (log2Bits L + 1) 0 (val x) hvlt
    (by omega)
  have hWL0 : 0 < W * L := Nat.mul_pos (by norm_num [W]) hL
  have hsmall : s % (W * L) < 2 ^ (log2Bits L + 1) := by
    calc s % (W * L) < W * L := Nat.mod_lt _ hWL0
      _ < 2 ^ (Nat.log2 (W * L) + 1) := lt_two_pow_log2_succ _
  have hexp : s % (W * L) / 2 ^ 0 % 2 ^ (log2Bits L + 1) * 2 ^ 0 = s % (W * L) := by
    simp [Nat.mod_eq_of_lt hsmall]
  simp only [shr]
  conv_lhs => rw [← hx0]
  rw [hladder, hexp]
  by_cases hs : s < W * L
  · rw [if_pos hs]
    simp only [ct_select]
    rw [if_neg (by simp [hs]), Nat.mod_eq_of_lt hs]
  · rw [if_neg hs]
    simp only [ct_select]
    rw [if_pos (by simp [hs])]

/-- C8: for every fixed-width integer `x` and every shift amount `s`
(including `s ≥ BITS`), the constant-time `shr` and the variable-time
`shr_vartime` return the same value; in particular both return zero at the
boundary case `s = BITS = W·L`. -/
theorem shr_eq_shr_vartime (L : Nat) (hL : 0 < L) (x : List Nat)
    (hxl : x.length = L) (hxb : ∀ d ∈ x, d < B) (s : Nat) :
    shr L x s = shr_vartime L x s ∧
    shr L x (W * L) = List.replicate L 0 ∧
    shr_vartime L x (W * L) = List.replicate L 0 := by
  have hmain : ∀ t, shr L x t = shr_vartime L x t := by
    intro t
    rw [shr_cases L hL x hxl hxb t, shr_vartime_val L x hxl hxb t]
    by_cases ht : t < W * L
    · rw [if_pos ht]
    · rw [if_neg ht]
      have hz : val x / 2 ^ t = 0 := by
        apply Nat.div_eq_of_lt
        calc val x < B ^ L := by rw [← hxl]; exact val_lt_pow hxb
          _ = 2 ^ (W * L) := B_pow_eq L
          _ ≤ 2 ^ t := Nat.pow_le_pow_right (by norm_num) (by omega)
      rw [hz, toLimbs_zero_eq]
  have hvz : shr_vartime L x (W * L) = List.replicate L 0 := by
    rw [shr_vartime_val L x hxl hxb]
    have hz : val x / 2 ^ (W * L) = 0 := by
      apply Nat.div_eq_of_lt
      rw [← B_pow_eq, ← hxl]
      exact val_lt_pow hxb
    rw [hz, toLimbs_zero_eq]
  exact ⟨hmain s, by rw [hmain]; exact hvz, hvz⟩

/-- Witness for C8 at `L = 1`, `x = [12345]`, `s = 3`. -/
theorem shr_eq_shr_vartime_witness :
    shr 1 [12345] 3 = shr_vartime 1 [12345] 3 ∧
    shr 1 [12345] (W * 1) = List.replicate 1 0 ∧
    shr_vartime 1 [12345] (W * 1) = List.replicate 1 0 :=
  shr_eq_shr_vartime 1 (by decide) [12345] (by decide) (by decide) 3

/-- C9: for all shift amounts with `s1 + s2 < BITS`, composing two
constant-time right shifts equals a single shift by the sum. -/
theorem shr_compose (L : Nat) (hL : 0 < L) (x : List Nat) (hxl : x.length = L)
    (hxb : ∀ d ∈ x, d < B) (s1 s2 : Nat) (hs : s1 + s2 < W * L) :
    shr L (shr L x s1) s2 = shr L x (s1 + s2) := by
  have hs1 : s1 < W * L := by omega
  have hs2 : s2 < W * L := by omega
  have hinner : shr L x s1 = toLimbs L (val x / 2 ^ s1) := by
    rw [shr_cases L hL x hxl hxb s1, if_pos hs1]
  have hvlt : val x < B ^ L := by rw [← hxl]; exact val_lt_pow hxb
  have hv1 : val (toLimbs L (val x / 2 ^ s1)) = val x / 2 ^ s1 := by
    rw [val_toLimbs, Nat.mod_eq_of_lt (lt_of_le_of_lt (Nat.div_le_self _ _) hvlt)]
  rw [hinner, shr_cases L hL _ (toLimbs_length _ _) (toLimbs_bounded _ _) s2,
    shr_cases L hL x hxl hxb (s1 + s2), if_pos hs2, if_pos hs, hv1,
    Nat.div_div_eq_div_mul, ← pow_add]

/-- Witness for C9 at `L = 1`, `x = [255]`, `s1 = 2`, `s2 = 3`. -/
theorem shr_compose_witness :
    shr 1 (shr 1 [255] 2) 3 = shr 1 [255] (2 + 3) :=
  shr_compose 1 (by decide) [255] (by decide) (by decide) 2 3 (by decide)

/-- C10: `shr_vartime_wide` shifts the double-width value: the output pair
represents `(lower + upper·2^BITS) / 2^shift` for every shift amount; and the
three 128-bit test vectors from `shr.rs` hold. -/
theorem shr_vartime_wide_correct (L : Nat) (lower upper : List Nat)
    (hll : lower.length = L) (hlb : ∀ d ∈ lower, d < B)
    (hul : upper.length = L) (hub : ∀ d ∈ upper, d < B) (shift : Nat) :
    (val (shr_vartime_wide L lower upper shift).1 +
      2 ^ (W * L) * val (shr_vartime_wide L lower upper shift).2 =
      (val lower + 2 ^ (W * L) * val upper) / 2 ^ shift) ∧
    shr_vartime_wide 2 [1, 0] [1, 0] 128 = ([1, 0], [0, 0]) ∧
    shr_vartime_wide 2 [0, 0] [B - 1, B - 1] 1 =
      ([0, 2 ^ 63], [B - 1, 2 ^ 63 - 1]) ∧
    shr_vartime_wide 2 [B - 1, B - 1] [B - 1, B - 1] 256 = ([0, 0], [0, 0]) := by
  have hvl : val lower < 2 ^ (W * L) := by
    rw [← B_pow_eq, ← hll]; exact val_lt_pow hlb
  have hvu : val upper < 2 ^ (W * L) := by
    rw [← B_pow_eq, ← hul]; exact val_lt_pow hub
  have hvlB : val lower < B ^ L := by rw [← hll]; exact val_lt_pow hlb
  have hvuB : val upper < B ^ L := by rw [← hul]; exact val_lt_pow hub
  refine ⟨?_, by decide, by decide, by decide⟩
  simp only [shr_vartime_wide]
  by_cases hsh : W * L ≤ shift
  · rw [if_pos hsh]
    rw [shr_vartime_val L lower hll hlb shift,
      shr_vartime_val L upper hul hub (shift - W * L),
      shr_vartime_val L upper hul hub shift]
    have hlow0 : val lower / 2 ^ shift = 0 :=
      Nat.div_eq_of_lt (lt_of_lt_of_le hvl (Nat.pow_le_pow_right (by norm_num) hsh))
    have hup0 : val upper / 2 ^ shift = 0 :=
      Nat.div_eq_of_lt (lt_of_lt_of_le hvu (Nat.pow_le_pow_right (by norm_num) hsh))
    rw [hlow0, hup0, toLimbs_zero_eq]
    rw [val_bitor _ _ (by rw [List.length_replicate, toLimbs_length])
        (by intro d hd; rw [List.eq_of_mem_replicate hd]; exact B_pos)
        (toLimbs_bounded _ _),
      val_replicate_zero, Nat.zero_or, val_toLimbs,
      Nat.mod_eq_of_lt (lt_of_le_of_lt (Nat.div_le_self _ _) hvuB)]
    have hpow : (2:Nat) ^ shift = 2 ^ (W * L) * 2 ^ (shift - W * L) := by
      rw [← pow_add]; congr 1; omega
    rw [hpow, ← Nat.div_div_eq_div_mul,
      Nat.add_mul_div_left _ _ (pow_pos (by norm_num) (W * L)),
      Nat.div_eq_of_lt hvl]
    simp
  · rw [if_neg hsh]
    simp only [shl_vartime]
    rw [if_neg (by omega)]
    rw [shr_vartime_val L lower hll hlb shift, shr_vartime_val L upper hul hub shift]
    rw [val_bitor _ _ (by rw [toLimbs_length, toLimbs_length])
      (toLimbs_bounded _ _) (toLimbs_bounded _ _)]
    rw [val_toLimbs, val_toLimbs, val_toLimbs]
    rw [Nat.mod_eq_of_lt (lt_of_le_of_lt (Nat.div_le_self _ _) hvlB)]
    rw [Nat.mod_eq_of_lt (lt_of_le_of_lt (Nat.div_le_self _ _) hvuB)]
    have hshl : val upper <<< (W * L - shift) % B ^ L =
        2 ^ (W * L - shift) * (val upper % 2 ^ shift) := by
      have hBL2 : B ^ L = 2 ^ (shift + (W * L - shift)) := by
        rw [B_pow_eq]; congr 1; omega
      rw [Nat.shiftLeft_eq, hBL2]
      exact mul_mod_two_pow_split _ _ _
    rw [hshl]
    have hdisj : val lower / 2 ^ shift < 2 ^ (W * L - shift) := by
      rw [Nat.div_lt_iff_lt_mul (pow_pos (by norm_num) shift)]
      calc val lower < 2 ^ (W * L) := hvl
        _ = 2 ^ (W * L - shift) * 2 ^ shift := by rw [← pow_add]; congr 1; omega
    rw [lor_disjoint _ _ hdisj]
    have hdecomp : val lower + 2 ^ (W * L) * val upper =
        val lower + 2 ^ shift * (2 ^ (W * L - shift) * (val upper % 2 ^ shift) +
          2 ^ (W * L) * (val upper / 2 ^ shift)) := by
      have hsplit2 : (2:Nat) ^ (W * L) = 2 ^ shift * 2 ^ (W * L - shift) := by
        rw [← pow_add]; congr 1; omega
      conv_lhs => rw [← Nat.mod_add_div (val upper) (2 ^ shift)]
      rw [hsplit2]
      ring
    rw [hdecomp, Nat.add_mul_div_left _ _ (pow_pos (by norm_num) shift)]
    ring

/-- Witness for C10 at `L = 1`, `lower = [5]`, `upper = [3]`, `shift = 2`. -/
theorem shr_vartime_wide_correct_witness :
    val (shr_vartime_wide 1 [5] [3] 2).1 +
      2 ^ (W * 1) * val (shr_vartime_wide 1 [5] [3] 2).2 =
      (val [5] + 2 ^ (W * 1) * val [3]) / 2 ^ 2 :=
  (shr_vartime_wide_correct 1 [5] [3] (by decide) (by decide) (by decide)
    (by decide) 2).1
